import Mathlib

/-!
Verification development for the in-memory personal organizer
(`jl.py`): a case-folded contact trie (`ContactTrie`), two
heapq-backed collections (`ReminderQueue`, `ProjectQueue`), the
composing `DataManager`, and the POST dispatch of `RequestHandler`.

Conventions of the shallow embedding:
* Python strings are Lean `String`s; trie paths are `List Char`,
  and `name.lower()` is modelled characterwise by `Char.toLower`
  (`foldStr`).
* Python dicts (`TrieNode.children`) are association lists in
  insertion order; `sorted(node.children.keys())` is
  `List.mergeSort`; dict-key uniqueness is the invariant `WFt`.
* `heapq` lists are plain `List`s; `heapq.heappush` / `heapq.heapify`
  are translated index-for-index from CPython's `_siftdown` /
  `_siftup`, parameterized by the Boolean `<` used on the stored
  tuples.
* Python's stable `sorted(key=...)` is `List.mergeSort` with the
  key comparison (both are the stable sort by that key).
* A `KeyError` escaping `do_POST` is an `Except.error` response
  component; the store component of the result is the (unmutated)
  manager state.
-/

/-- A contact record, as built by `ContactTrie.insert`
(`{'name': name, 'phone': phone, 'email': email}`). -/
structure Contact where
  name : String
  phone : String
  email : String
deriving DecidableEq, Repr

/-- Characterwise model of Python's `name.lower()` as used to build trie paths
(one trie edge per character of the lowered name). -/
def foldStr (s : String) : List Char :=
  s.data.map Char.toLower

/-- A trie node: `self.children` (a dict, modelled as an association list in
insertion order) and `self.contact` (`None` or a record). -/
inductive TrieNode : Type where
  | node (contact : Option Contact) (children : List (Char × TrieNode)) : TrieNode

/-- The `contact` field of a node. -/
def TrieNode.contact : TrieNode → Option Contact
  | .node c _ => c

/-- The `children` field of a node. -/
def TrieNode.children : TrieNode → List (Char × TrieNode)
  | .node _ cs => cs

/-- Dict lookup `node.children[char]` / membership `char in node.children`
(first matching key of the association list). -/
def lookupChild (k : Char) : List (Char × TrieNode) → Option TrieNode
  | [] => none
  | (k', t) :: rest => if k' = k then some t else lookupChild k rest

/-- Dict assignment `node.children[char] = t` for a key already present
(updates the value in place, keeping the key's position). -/
def setChild (k : Char) (t : TrieNode) (cs : List (Char × TrieNode)) :
    List (Char × TrieNode) :=
  cs.map (fun e => if e.1 = k then (k, t) else e)

/-- Dict deletion `del node.children[char]` (removes the first entry with the
key; a dict has at most one). -/
def removeChild (k : Char) (cs : List (Char × TrieNode)) :
    List (Char × TrieNode) :=
  cs.eraseP (fun e => e.1 = k)

/-- The keys of a children dict, in insertion order. -/
def keysOf (cs : List (Char × TrieNode)) : List Char :=
  cs.map Prod.fst

/-- `ContactTrie.insert`, inner loop over the lowered-name path: walk/create
child nodes along `path`, then store the record at the final node. -/
def insertPath : TrieNode → List Char → Contact → TrieNode
  | .node _ cs, [], c => .node (some c) cs
  | .node c0 cs, k :: rest, c =>
    match lookupChild k cs with
    | some t => .node c0 (setChild k (insertPath t rest c) cs)
    | none => .node c0 (cs ++ [(k, insertPath (.node none []) rest c)])

/-- `ContactTrie.insert(name, phone, email)`. -/
def insertC (t : TrieNode) (name phone email : String) : TrieNode :=
  insertPath t (foldStr name) ⟨name, phone, email⟩

/-- `ContactTrie.search`, inner loop over the lowered-name path. -/
def searchPath : TrieNode → List Char → Option Contact
  | .node c _, [] => c
  | .node _ cs, k :: rest =>
    match lookupChild k cs with
    | some t => searchPath t rest
    | none => none

/-- `ContactTrie.search(name)`. -/
def searchC (t : TrieNode) (name : String) : Option Contact :=
  searchPath t (foldStr name)

/-- The recursive `_delete(node, name, index)` helper of
`ContactTrie.delete`: returns the updated node and the `should_delete`
flag telling the parent to drop this child. -/
def deleteAux : TrieNode → List Char → TrieNode × Bool
  | .node c0 cs, [] =>
    match c0 with
    | none => (.node none cs, false)
    | some _ => (.node none cs, cs.isEmpty)
  | .node c0 cs, k :: rest =>
    match lookupChild k cs with
    | none => (.node c0 cs, false)
    | some t =>
      let r := deleteAux t rest
      if r.2 then
        let cs' := removeChild k cs
        (.node c0 cs', cs'.isEmpty && c0.isNone)
      else (.node c0 (setChild k r.1 cs), false)

/-- `ContactTrie.delete(name)` (the root's `should_delete` flag is discarded). -/
def deleteC (t : TrieNode) (name : String) : TrieNode :=
  (deleteAux t (foldStr name)).1

/-- Boolean `≤` on characters used to model `sorted(node.children.keys())`. -/
def chLe (a b : Char) : Bool :=
  decide (a ≤ b)

/-- Bound used for the termination of the trie traversal. -/
theorem lookupChild_sizeOf {k : Char} :
    ∀ {cs : List (Char × TrieNode)} {t : TrieNode},
      lookupChild k cs = some t → sizeOf t < sizeOf cs
  | [], t, h => by simp [lookupChild] at h
  | (k', t') :: rest, t, h => by
    by_cases hk : k' = k
    · simp [lookupChild, hk] at h
      subst h
      simp
      omega
    · simp [lookupChild, hk] at h
      have := lookupChild_sizeOf h
      simp
      omega

/-- The shared `_traverse` closure of `ContactTrie.get_all_sorted` and
`ContactTrie.search_prefix`: the node's own record first, then each child in
ascending key order. -/
def collect (t : TrieNode) : List Contact :=
  match t with
  | .node c cs =>
    (match c with
     | some x => [x]
     | none => []) ++
    ((keysOf cs).mergeSort chLe).flatMap (fun k =>
      match h : lookupChild k cs with
      | some t' => collect t'
      | none => [])
termination_by sizeOf t
decreasing_by
  have h1 := lookupChild_sizeOf h
  simp
  omega

/-- `ContactTrie.get_all_sorted()`. -/
def getAllSorted (t : TrieNode) : List Contact :=
  collect t

/-- The prefix walk of `ContactTrie.search_prefix` (returns the node at the end
of the lowered prefix path, if the path exists). -/
def walkPath : TrieNode → List Char → Option TrieNode
  | t, [] => some t
  | .node _ cs, k :: rest =>
    match lookupChild k cs with
    | some t => walkPath t rest
    | none => none

/-- `ContactTrie.search_prefix(prefix)`. -/
def searchPre (t : TrieNode) (p : String) : List Contact :=
  match walkPath t (foldStr p) with
  | some n => collect n
  | none => []

/-! ### The `heapq` translation

CPython's `heapq.heappush` appends and calls `_siftdown(heap, 0, len-1)`;
`heapq.heapify` calls `_siftup(x, i)` for `i` in `reversed(range(n//2))`.
Both sift loops are translated index-for-index, parameterized by the
Boolean strict comparison `ltb` that models `<` on the stored tuples. -/

/-- CPython `heapq._siftdown(heap, startpos, pos)`: `newitem` has been read
from index `pos`; bubble it toward the root while it is `<` its parent. -/
def siftdownLoop (ltb : α → α → Bool) (newitem : α) (startpos : Nat) :
    List α → Nat → List α
  | heap, pos =>
    if h : startpos < pos then
      let parentpos := (pos - 1) / 2
      let parent := heap.getD parentpos newitem
      if ltb newitem parent then
        siftdownLoop ltb newitem startpos (heap.set pos parent) parentpos
      else heap.set pos newitem
    else heap.set pos newitem
termination_by _ pos => pos
decreasing_by
  omega

/-- CPython `heapq.heappush(heap, item)`: append, then sift down from the new
last slot. -/
def heappush (ltb : α → α → Bool) (heap : List α) (item : α) : List α :=
  siftdownLoop ltb item 0 (heap ++ [item]) heap.length

/-- The `while childpos < endpos` loop of CPython `heapq._siftup(heap, pos)`:
move the smaller child up until reaching a leaf, then place `newitem` there
and sift it down. -/
def siftupLoop (ltb : α → α → Bool) (endpos : Nat) (newitem : α)
    (startpos : Nat) : List α → Nat → List α
  | heap, pos =>
    if h : 2 * pos + 1 < endpos then
      let childpos := 2 * pos + 1
      let rightpos := childpos + 1
      let childpos' :=
        if rightpos < endpos &&
            !ltb (heap.getD childpos newitem) (heap.getD rightpos newitem) then
          rightpos
        else childpos
      siftupLoop ltb endpos newitem startpos
        (heap.set pos (heap.getD childpos' newitem)) childpos'
    else siftdownLoop ltb newitem startpos (heap.set pos newitem) pos
termination_by _ pos => endpos - pos
decreasing_by
  split <;> omega

/-- CPython `heapq._siftup(heap, pos)` (`newitem = heap[pos]`). -/
def siftup (ltb : α → α → Bool) (heap : List α) (pos : Nat) : List α :=
  match heap.get? pos with
  | some newitem => siftupLoop ltb heap.length newitem pos heap pos
  | none => heap

/-- The `for i in reversed(range(n//2))` loop of `heapq.heapify`. -/
def heapifyAux (ltb : α → α → Bool) : List α → Nat → List α
  | heap, 0 => heap
  | heap, i + 1 => heapifyAux ltb (siftup ltb heap i) i

/-- CPython `heapq.heapify(x)`. -/
def heapify (ltb : α → α → Bool) (heap : List α) : List α :=
  heapifyAux ltb heap (heap.length / 2)

/-! ### The two queues, the manager and the request handler -/

/-- An entry of `ReminderQueue.heap`: the tuple `(timestamp, text)`. -/
abbrev RemEntry : Type := Int × String

/-- Python's `<` on `(timestamp, text)` tuples (lexicographic). -/
def remLt (a b : RemEntry) : Bool :=
  decide (a.1 < b.1) || (a.1 == b.1 && decide (a.2 < b.2))

/-- `ReminderQueue.add(text, timestamp)`. -/
def remAdd (h : List RemEntry) (text : String) (ts : Int) : List RemEntry :=
  heappush remLt h (ts, text)

/-- `ReminderQueue.get_all()`: `sorted(self.heap, key=lambda x: x[0])` —
the stable sort by the timestamp component. -/
def remGetAll (h : List RemEntry) : List RemEntry :=
  h.mergeSort (fun a b => decide (a.1 ≤ b.1))

/-- `ReminderQueue.remove(text, timestamp)`: keep the entries that do not
match the exact pair, then re-heapify. -/
def remRemove (h : List RemEntry) (text : String) (ts : Int) : List RemEntry :=
  heapify remLt (h.filter (fun e => !(e.1 == ts && e.2 == text)))

/-- An entry of `ProjectQueue.projects`: the tuple `(start_date, name, end_date)`. -/
abbrev ProjEntry : Type := String × String × String

/-- Python's `<` on `(start_date, name, end_date)` tuples (lexicographic). -/
def projLt (a b : ProjEntry) : Bool :=
  decide (a.1 < b.1) ||
    (a.1 == b.1 &&
      (decide (a.2.1 < b.2.1) || (a.2.1 == b.2.1 && decide (a.2.2 < b.2.2))))

/-- `ProjectQueue.add(name, start_date, end_date)`. -/
def projAdd (h : List ProjEntry) (name start_date end_date : String) :
    List ProjEntry :=
  heappush projLt h (start_date, name, end_date)

/-- `ProjectQueue.get_all()`: the stable sort by the start-date component. -/
def projGetAll (h : List ProjEntry) : List ProjEntry :=
  h.mergeSort (fun a b => decide (a.1 ≤ b.1))

/-- `ProjectQueue.remove(name, start_date)`: keep the entries whose name or
start date differs, then re-heapify. -/
def projRemove (h : List ProjEntry) (name start_date : String) :
    List ProjEntry :=
  heapify projLt (h.filter (fun e => !(e.2.1 == name && e.1 == start_date)))

/-- The `DataManager` state: one trie and the two heap lists. -/
structure DataManager where
  contacts : TrieNode
  reminders : List RemEntry
  projects : List ProjEntry

/-- A reminder as serialized by `DataManager.get_data`
(`{'text': t, 'time': ts}`). -/
structure RemOut where
  text : String
  time : Int
deriving DecidableEq, Repr

/-- A project as serialized by `DataManager.get_data`
(`{'name': n, 'start': s, 'end': e}`). -/
structure ProjOut where
  name : String
  start : String
  endDate : String
deriving DecidableEq, Repr

/-- The full state returned by `DataManager.get_data`. -/
structure Snapshot where
  contacts : List Contact
  reminders : List RemOut
  projects : List ProjOut
deriving DecidableEq, Repr

/-- `DataManager.get_data()`. -/
def get_data (m : DataManager) : Snapshot where
  contacts := getAllSorted m.contacts
  reminders := (remGetAll m.reminders).map (fun e => ⟨e.2, e.1⟩)
  projects := (projGetAll m.projects).map (fun e => ⟨e.2.1, e.1, e.2.2⟩)

/-- The manager created at module load (`manager = DataManager()`). -/
def initManager : DataManager :=
  ⟨.node none [], [], []⟩

/-- A decoded POST body: `data.get('action')` plus the optional fields the
six operations read with `data[...]` (a missing key raises `KeyError`). -/
structure Request where
  action : Option String := none
  name : Option String := none
  phone : Option String := none
  email : Option String := none
  text : Option String := none
  timestamp : Option Int := none
  start : Option String := none
  endDate : Option String := none
deriving DecidableEq, Repr

/-- `RequestHandler.do_POST`: the `elif` chain on `action`. The result is the
manager state afterwards together with either the serialized `get_data`
response or the uncaught `KeyError` fault. Each `data[...]` subscript is
evaluated before the container method is invoked, so a fault leaves the
manager untouched. -/
def postStep (m : DataManager) (req : Request) :
    DataManager × Except String Snapshot :=
  if req.action == some "add_contact" then
    match req.name, req.phone, req.email with
    | some n, some p, some e =>
      let m' := { m with contacts := insertC m.contacts n p e }
      (m', .ok (get_data m'))
    | _, _, _ => (m, .error "KeyError")
  else if req.action == some "delete_contact" then
    match req.name with
    | some n => let m' := { m with contacts := deleteC m.contacts n }
                (m', .ok (get_data m'))
    | none => (m, .error "KeyError")
  else if req.action == some "add_reminder" then
    match req.text, req.timestamp with
    | some t, some ts => let m' := { m with reminders := remAdd m.reminders t ts }
                         (m', .ok (get_data m'))
    | _, _ => (m, .error "KeyError")
  else if req.action == some "delete_reminder" then
    match req.text, req.timestamp with
    | some t, some ts => let m' := { m with reminders := remRemove m.reminders t ts }
                         (m', .ok (get_data m'))
    | _, _ => (m, .error "KeyError")
  else if req.action == some "add_project" then
    match req.name, req.start, req.endDate with
    | some n, some s, some e => let m' := { m with projects := projAdd m.projects n s e }
                                (m', .ok (get_data m'))
    | _, _, _ => (m, .error "KeyError")
  else if req.action == some "delete_project" then
    match req.name, req.start with
    | some n, some s => let m' := { m with projects := projRemove m.projects n s }
                        (m', .ok (get_data m'))
    | _, _ => (m, .error "KeyError")
  else (m, .ok (get_data m))

/-- The manager state after a sequence of POST requests against the shared
`manager` (a faulting request leaves the state as it was). -/
def applyReqs (m : DataManager) (reqs : List Request) : DataManager :=
  reqs.foldl (fun s r => (postStep s r).1) m

/-! ### Heap lemmas, part 1: multiset content -/

/-- Moving the element at position `m` to the front while writing `x` at `m`
is a permutation of consing `x`. -/
theorem perm_getD_cons_set {α : Type} (d x : α) :
    ∀ (t : List α) (m : Nat), m < t.length →
      List.Perm (t.getD m d :: t.set m x) (x :: t)
  | [], m, h => by simp at h
  | b :: t', 0, _ => by
    simpa using List.Perm.swap x b t'
  | b :: t', m + 1, h => by
    have ih := perm_getD_cons_set d x t' m (by simpa using h)
    simp only [List.getD_cons_succ, List.set_cons_succ]
    refine (List.Perm.swap _ _ _).trans ?_
    refine (ih.cons b).trans ?_
    exact List.Perm.swap _ _ _

/-- Exchanging which of two values is written at position `n` and which is
consed in front is a permutation. -/
theorem perm_cons_set_exch {α : Type} (a x : α) :
    ∀ (t : List α) (n : Nat), n < t.length →
      List.Perm (x :: t.set n a) (a :: t.set n x)
  | [], n, h => by simp at h
  | b :: t', 0, _ => by simpa using List.Perm.swap a x t'
  | b :: t', n + 1, h => by
    have ih := perm_cons_set_exch a x t' n (by simpa using h)
    simp only [List.set_cons_succ]
    refine (List.Perm.swap _ _ _).trans ?_
    refine (ih.cons b).trans ?_
    exact List.Perm.swap _ _ _

/-- Copying the value at `j` over position `i` and then overwriting `j` with
`x` permutes to writing `x` at `i` directly. -/
theorem perm_set_copy_set {α : Type} (d x : α) :
    ∀ (l : List α) (i j : Nat), i < l.length → j < l.length →
      List.Perm ((l.set i (l.getD j d)).set j x) (l.set i x)
  | [], i, j, hi, _ => by simp at hi
  | a :: t, 0, 0, _, _ => by simp
  | a :: t, 0, j + 1, _, hj => by
    simp only [List.getD_cons_succ, List.set_cons_zero, List.set_cons_succ]
    exact perm_getD_cons_set d x t j (by simpa using hj)
  | a :: t, i + 1, 0, hi, _ => by
    simp only [List.getD_cons_zero, List.set_cons_succ, List.set_cons_zero]
    exact perm_cons_set_exch a x t i (by simpa using hi)
  | a :: t, i + 1, j + 1, hi, hj => by
    simp only [List.getD_cons_succ, List.set_cons_succ]
    exact (perm_set_copy_set d x t i j (by simpa using hi) (by simpa using hj)).cons a

/-- Writing back the value already present leaves the list unchanged. -/
theorem set_getD_self {α : Type} (d : α) :
    ∀ (l : List α) (i : Nat), i < l.length → l.set i (l.getD i d) = l
  | [], i, h => by simp at h
  | a :: t, 0, _ => by simp
  | a :: t, i + 1, h => by
    simp only [List.getD_cons_succ, List.set_cons_succ]
    rw [set_getD_self d t i (by simpa using h)]

/-- `_siftdown` preserves length. -/
theorem siftdownLoop_length {α : Type} (ltb : α → α → Bool) (ni : α) (s : Nat) :
    ∀ (pos : Nat) (heap : List α),
      (siftdownLoop ltb ni s heap pos).length = heap.length := by
  intro pos
  induction pos using Nat.strong_induction_on with
  | _ pos ih =>
    intro heap
    rw [siftdownLoop]
    split
    · dsimp only []
      split
      · rw [ih _ (by omega)]
        simp
      · simp
    · simp

/-- `_siftdown` is a permutation of writing `newitem` at `pos`. -/
theorem siftdownLoop_perm {α : Type} (ltb : α → α → Bool) (ni : α) (s : Nat) :
    ∀ (pos : Nat) (heap : List α), pos < heap.length →
      List.Perm (siftdownLoop ltb ni s heap pos) (heap.set pos ni) := by
  intro pos
  induction pos using Nat.strong_induction_on with
  | _ pos ih =>
    intro heap hpos
    rw [siftdownLoop]
    split
    · dsimp only []
      split
      · have h1 : (pos - 1) / 2 < pos := by omega
        have h2 : (pos - 1) / 2 < (heap.set pos (heap.getD ((pos - 1) / 2) ni)).length := by
          simp
          omega
        refine (ih _ h1 _ h2).trans ?_
        exact perm_set_copy_set ni ni heap pos ((pos - 1) / 2) hpos (by omega)
      · exact List.Perm.refl _
    · exact List.Perm.refl _

/-- The `_siftup` descent loop preserves length. -/
theorem siftupLoop_length {α : Type} (ltb : α → α → Bool) (ep : Nat) (ni : α)
    (s : Nat) :
    ∀ (fuel pos : Nat) (heap : List α), ep - pos ≤ fuel →
      (siftupLoop ltb ep ni s heap pos).length = heap.length := by
  intro fuel
  induction fuel with
  | zero =>
    intro pos heap h
    rw [siftupLoop]
    split
    · omega
    · rw [siftdownLoop_length]
      simp
  | succ n ih =>
    intro pos heap h
    rw [siftupLoop]
    split
    · dsimp only []
      split
      · rw [ih _ _ (by omega)]
        simp
      · rw [ih _ _ (by omega)]
        simp
    · rw [siftdownLoop_length]
      simp

/-- The `_siftup` descent loop is a permutation of writing `newitem` at
`pos`. -/
theorem siftupLoop_perm {α : Type} (ltb : α → α → Bool) (ni : α) (s : Nat) :
    ∀ (fuel : Nat) (pos : Nat) (heap : List α), heap.length - pos ≤ fuel →
      pos < heap.length →
      List.Perm (siftupLoop ltb heap.length ni s heap pos) (heap.set pos ni) := by
  intro fuel
  induction fuel with
  | zero =>
    intro pos heap h hpos
    omega
  | succ n ih =>
    intro pos heap h hpos
    rw [siftupLoop]
    split
    · next hc =>
      dsimp only []
      set cp := if 2 * pos + 1 + 1 < heap.length &&
          !ltb (heap.getD (2 * pos + 1) ni) (heap.getD (2 * pos + 1 + 1) ni)
        then 2 * pos + 1 + 1 else 2 * pos + 1 with hcp
      have hcpb : pos < cp ∧ cp < heap.length := by
        rw [hcp]
        split
        · next hsp =>
          constructor
          · omega
          · rw [Bool.and_eq_true] at hsp
            have := of_decide_eq_true hsp.1
            omega
        · constructor <;> omega
      have hlen : (heap.set pos (heap.getD cp ni)).length = heap.length := by simp
      have hrec := ih cp (heap.set pos (heap.getD cp ni))
        (by rw [hlen]; omega) (by rw [hlen]; exact hcpb.2)
      rw [hlen] at hrec
      refine hrec.trans ?_
      exact perm_set_copy_set ni ni heap pos cp hpos hcpb.2
    · have hl : pos < (heap.set pos ni).length := by simpa using hpos
      have := siftdownLoop_perm ltb ni s pos _ hl
      rw [List.set_set] at this
      exact this

/-- `_siftup` permutes the heap. -/
theorem siftup_perm {α : Type} (ltb : α → α → Bool) (heap : List α) (pos : Nat) :
    List.Perm (siftup ltb heap pos) heap := by
  unfold siftup
  split
  · next ni hni =>
    have hpos : pos < heap.length := by
      rcases List.get?_eq_some.mp hni with ⟨h, _⟩
      exact h
    have hval : heap.getD pos ni = ni := by
      rw [List.getD_eq_getElem _ _ hpos]
      rcases List.get?_eq_some.mp hni with ⟨h, hv⟩
      simpa [List.get_eq_getElem] using hv
    refine (siftupLoop_perm ltb ni pos (heap.length - pos) pos heap le_rfl hpos).trans ?_
    rw [← hval, set_getD_self _ _ _ hpos]
  · exact List.Perm.refl _

/-- `_siftup` preserves length. -/
theorem siftup_length {α : Type} (ltb : α → α → Bool) (heap : List α) (pos : Nat) :
    (siftup ltb heap pos).length = heap.length :=
  (siftup_perm ltb heap pos).length_eq

/-- The `heapify` loop permutes its input. -/
theorem heapifyAux_perm {α : Type} (ltb : α → α → Bool) :
    ∀ (i : Nat) (heap : List α), List.Perm (heapifyAux ltb heap i) heap := by
  intro i
  induction i with
  | zero => intro heap; exact List.Perm.refl _
  | succ n ih =>
    intro heap
    exact (ih (siftup ltb heap n)).trans (siftup_perm ltb heap n)

/-- `heapq.heapify` permutes its input. -/
theorem heapify_perm {α : Type} (ltb : α → α → Bool) (heap : List α) :
    List.Perm (heapify ltb heap) heap :=
  heapifyAux_perm ltb _ heap

/-- `heapq.heappush` is, up to permutation, a cons. -/
theorem heappush_perm {α : Type} (ltb : α → α → Bool) (heap : List α) (x : α) :
    List.Perm (heappush ltb heap x) (x :: heap) := by
  unfold heappush
  have hl : heap.length < (heap ++ [x]).length := by simp
  refine (siftdownLoop_perm ltb x 0 heap.length (heap ++ [x]) hl).trans ?_
  have hv : (heap ++ [x]).getD heap.length x = x := by
    rw [List.getD_eq_getElem _ _ hl]
    simp
  have hid := set_getD_self x (heap ++ [x]) heap.length hl
  rw [hv] at hid
  rw [hid]
  simp

/-! ### Heap lemmas, part 2: the heap invariant -/

/-- Parent index in the implicit binary tree of `heapq` (`(pos - 1) >> 1`). -/
def parentIdx (j : Nat) : Nat :=
  (j - 1) / 2

/-- Asymmetry of a strict comparison. -/
def LtbAsymm {α : Type} (ltb : α → α → Bool) : Prop :=
  ∀ a b, ltb a b = true → ltb b a = false

/-- Transitivity of the associated `≤` (`ltb b a = false` reads `a ≤ b`). -/
def LtbTrans {α : Type} (ltb : α → α → Bool) : Prop :=
  ∀ a b c, ltb b a = false → ltb c b = false → ltb c a = false

/-- Connectedness: mutually incomparable elements are equal. -/
def LtbConn {α : Type} (ltb : α → α → Bool) : Prop :=
  ∀ a b, ltb a b = false → ltb b a = false → a = b

/-- Asymmetry gives irreflexivity. -/
theorem LtbAsymm.irrefl {α : Type} {ltb : α → α → Bool} (h : LtbAsymm ltb)
    (a : α) : ltb a a = false := by
  by_cases hb : ltb a a = true
  · exact h a a hb
  · simpa using hb

/-- The `heapq` invariant: every element is `≥` its parent. -/
def IsHeapB {α : Type} (ltb : α → α → Bool) (l : List α) : Prop :=
  ∀ (d : α) (j : Nat), 0 < j → j < l.length →
    ltb (l.getD j d) (l.getD (parentIdx j) d) = false

/-- In-range `getD` does not depend on the default. -/
theorem getD_indep {α : Type} (l : List α) (i : Nat) (d d' : α)
    (h : i < l.length) : l.getD i d = l.getD i d' := by
  rw [List.getD_eq_getElem _ _ h, List.getD_eq_getElem _ _ h]

/-- `getD` after `set` at the written index. -/
theorem getD_set_self {α : Type} (l : List α) (i : Nat) (x d : α)
    (h : i < l.length) : (l.set i x).getD i d = x := by
  rw [List.getD_eq_getElem _ _ (by simpa using h)]
  simp

/-- `getD` after `set` at another index. -/
theorem getD_set_ne {α : Type} (l : List α) {i j : Nat} (x d : α)
    (h : i ≠ j) : (l.set i x).getD j d = l.getD j d := by
  by_cases hj : j < l.length
  · rw [List.getD_eq_getElem _ _ (by simpa using hj), List.getD_eq_getElem _ _ hj]
    exact List.getElem_set_ne h _
  · rw [List.getD_eq_default _ _ (by simpa using Nat.le_of_not_lt hj),
      List.getD_eq_default _ _ (Nat.le_of_not_lt hj)]

/-- `s` is an ancestor (or self) of `p` in the implicit heap tree. -/
inductive Anc (s : Nat) : Nat → Prop
  | base : Anc s s
  | up {p : Nat} (h : s < p) (hp : Anc s (parentIdx p)) : Anc s p

/-- An ancestor has a smaller or equal index. -/
theorem Anc.le {s p : Nat} : Anc s p → s ≤ p := by
  intro h
  cases h with
  | base => exact Nat.le_refl s
  | up h _ => exact Nat.le_of_lt h

/-- A strict ancestor is an ancestor of the parent. -/
theorem Anc.parent {s p : Nat} (h : Anc s p) (hne : s ≠ p) :
    Anc s (parentIdx p) := by
  cases h with
  | base => exact absurd rfl hne
  | up _ hp => exact hp

/-- Every index is a descendant of the root. -/
theorem anc_zero : ∀ p, Anc 0 p := by
  intro p
  induction p using Nat.strong_induction_on with
  | _ p ih =>
    cases Nat.eq_zero_or_pos p with
    | inl h => exact h ▸ Anc.base
    | inr h =>
      exact Anc.up h (ih (parentIdx p) (by unfold parentIdx; omega))

/-- Ancestors of ancestors are ancestors. -/
theorem Anc.trans {a b c : Nat} (h1 : Anc a b) (h2 : Anc b c) : Anc a c := by
  induction h2 with
  | base => exact h1
  | up h _ ih => exact Anc.up (Nat.lt_of_le_of_lt h1.le h) ih

/-- A child of `p` is a strict descendant of any ancestor of `p`. -/
theorem Anc.step {s p c : Nat} (h : Anc s p) (hc : parentIdx c = p)
    (h0 : 0 < c) : Anc s c := by
  have hlt : p < c := by
    unfold parentIdx at hc
    omega
  refine Anc.up (Nat.lt_of_le_of_lt h.le hlt) ?_
  rw [hc]
  exact h

/-- The chain from `j` down to `pos` has a first step: a child of `j` that is
still an ancestor of `pos`. -/
theorem anc_child_exists {j pos : Nat} (h : Anc j pos) (hne : j ≠ pos) :
    ∃ c, parentIdx c = j ∧ j < c ∧ Anc c pos := by
  induction h with
  | base => exact absurd rfl hne
  | up hlt hp ih =>
    next p =>
    by_cases hj : j = parentIdx p
    · refine ⟨p, hj.symm, ?_, Anc.base⟩
      have : parentIdx p < p := by
        unfold parentIdx
        omega
      omega
    · rcases ih hj with ⟨c, hc1, hc2, hc3⟩
      have hcp : c < p := by
        have := hc3.le
        have : parentIdx p < p := by
          unfold parentIdx
          omega
        omega
      exact ⟨c, hc1, hc2, Anc.up hcp hc3⟩

/-- On the chain toward `cp`, the only node whose parent is `parentIdx cp`
is `cp` itself. -/
theorem anc_parent_unique {c cp : Nat} (h : Anc c cp) (hp : parentIdx c = parentIdx cp)
    (hc : 0 < c) (hcp : 0 < cp) : c = cp := by
  cases h with
  | base => rfl
  | up hlt hpar =>
    have h1 := hpar.le
    unfold parentIdx at hp h1
    omega

/-- The heap property restricted to the edges whose parent is at least `s`. -/
def ScopedHeap {α : Type} (ltb : α → α → Bool) (d : α) (s : Nat)
    (l : List α) : Prop :=
  ∀ j, 0 < j → j < l.length → s ≤ parentIdx j →
    ltb (l.getD j d) (l.getD (parentIdx j) d) = false

/-- `_siftdown` establishes the heap property on the subtree of `s`: if every
in-scope edge except the one into `pos` holds, `newitem` is below the children
of `pos`, and so is the value of the parent of `pos`, then after the sift all
in-scope edges hold. -/
theorem siftdownLoop_heapOK {α : Type} {ltb : α → α → Bool}
    (HA : LtbAsymm ltb) (HT : LtbTrans ltb) (ni : α) (s : Nat) (d : α) :
    ∀ (pos : Nat) (heap : List α), Anc s pos → pos < heap.length →
      (∀ j, 0 < j → j < heap.length → s ≤ parentIdx j → j ≠ pos →
        ltb (heap.getD j d) (heap.getD (parentIdx j) d) = false) →
      (∀ c, parentIdx c = pos → 0 < c → c < heap.length →
        ltb (heap.getD c d) ni = false) →
      (s < pos → ∀ c, parentIdx c = pos → 0 < c → c < heap.length →
        ltb (heap.getD c d) (heap.getD (parentIdx pos) d) = false) →
      ScopedHeap ltb d s (siftdownLoop ltb ni s heap pos) := by
  intro pos
  induction pos using Nat.strong_induction_on with
  | _ pos ih =>
    intro heap hanc hpos h2a h2b h2c
    rw [siftdownLoop]
    split
    · next hs =>
      dsimp only []
      rw [show (pos - 1) / 2 = parentIdx pos from rfl]
      have hpp_lt : parentIdx pos < pos := by
        unfold parentIdx
        omega
      have hpp_len : parentIdx pos < heap.length := Nat.lt_trans hpp_lt hpos
      have hpv : heap.getD (parentIdx pos) ni = heap.getD (parentIdx pos) d :=
        getD_indep _ _ _ _ hpp_len
      have hanc' : Anc s (parentIdx pos) := hanc.parent (Nat.ne_of_lt hs)
      rw [hpv]
      split
      · next hlt =>
        refine ih (parentIdx pos) hpp_lt _ hanc' (by simpa using hpp_len) ?_ ?_ ?_
        · -- (2a) for the written heap
          intro j hj0 hjlen hjs hjne
          rw [List.length_set] at hjlen
          by_cases hjp : j = pos
          · subst hjp
            rw [getD_set_self _ _ _ _ hpos,
              getD_set_ne _ _ _ (Nat.ne_of_lt hpp_lt).symm]
            exact HA.irrefl _
          · rw [getD_set_ne _ _ _ (Ne.symm hjp)]
            by_cases hpj : parentIdx j = pos
            · rw [hpj, getD_set_self _ _ _ _ hpos]
              exact h2c hs j hpj hj0 hjlen
            · rw [getD_set_ne _ _ _ (Ne.symm hpj)]
              exact h2a j hj0 hjlen hjs hjp
        · -- (2b): newitem below the children of the parent slot
          intro c hc hc0 hclen
          rw [List.length_set] at hclen
          by_cases hcp : c = pos
          · subst hcp
            rw [getD_set_self _ _ _ _ hpos]
            exact HA _ _ hlt
          · rw [getD_set_ne _ _ _ (Ne.symm hcp)]
            have hedge : ltb (heap.getD c d) (heap.getD (parentIdx pos) d) = false := by
              have := h2a c hc0 hclen (by rw [hc]; exact hanc'.le) hcp
              rw [hc] at this
              exact this
            exact HT ni _ _ (HA _ _ hlt) hedge
        · -- (2c): grandparent value below those children
          intro hs' c hc hc0 hclen
          rw [List.length_set] at hclen
          have hppos0 : 0 < parentIdx pos := Nat.lt_of_le_of_lt (Nat.zero_le s) hs'
          have hg_lt : parentIdx (parentIdx pos) < pos := by
            unfold parentIdx
            omega
          have hgp : Anc s (parentIdx (parentIdx pos)) :=
            hanc'.parent (Nat.ne_of_lt hs')
          have hedge_p : ltb (heap.getD (parentIdx pos) d)
              (heap.getD (parentIdx (parentIdx pos)) d) = false :=
            h2a (parentIdx pos) hppos0 hpp_len hgp.le (Nat.ne_of_lt hpp_lt)
          rw [getD_set_ne _ _ _ (Ne.symm (Nat.ne_of_lt hg_lt))]
          by_cases hcp : c = pos
          · subst hcp
            rw [getD_set_self _ _ _ _ hpos]
            exact hedge_p
          · rw [getD_set_ne _ _ _ (Ne.symm hcp)]
            have hedge_c : ltb (heap.getD c d) (heap.getD (parentIdx pos) d) = false := by
              have := h2a c hc0 hclen (by rw [hc]; exact hanc'.le) hcp
              rw [hc] at this
              exact this
            exact HT _ _ _ hedge_p hedge_c
      · next hlt =>
        intro j hj0 hjlen hjs
        rw [List.length_set] at hjlen
        by_cases hjp : j = pos
        · subst hjp
          rw [getD_set_self _ _ _ _ hpos,
            getD_set_ne _ _ _ (Nat.ne_of_lt hpp_lt).symm]
          simpa using hlt
        · rw [getD_set_ne _ _ _ (Ne.symm hjp)]
          by_cases hpj : parentIdx j = pos
          · rw [hpj, getD_set_self _ _ _ _ hpos]
            exact h2b j hpj hj0 hjlen
          · rw [getD_set_ne _ _ _ (Ne.symm hpj)]
            exact h2a j hj0 hjlen hjs hjp
    · next hs =>
      have hps : pos = s := Nat.le_antisymm (Nat.le_of_not_lt hs) hanc.le
      intro j hj0 hjlen hjs
      rw [List.length_set] at hjlen
      have hjp : j ≠ pos := by
        intro hj
        subst hj
        rw [hps] at hjs
        unfold parentIdx at hjs
        omega
      rw [getD_set_ne _ _ _ (Ne.symm hjp)]
      by_cases hpj : parentIdx j = pos
      · rw [hpj, getD_set_self _ _ _ _ hpos]
        exact h2b j hpj hj0 hjlen
      · rw [getD_set_ne _ _ _ (Ne.symm hpj)]
        exact h2a j hj0 hjlen hjs hjp

/-- `heapq.heappush` preserves the heap invariant. -/
theorem heappush_heapOK {α : Type} {ltb : α → α → Bool}
    (HA : LtbAsymm ltb) (HT : LtbTrans ltb) {l : List α} (x : α)
    (hl : IsHeapB ltb l) : IsHeapB ltb (heappush ltb l x) := by
  intro d j hj0 hjlen
  have hlen : l.length < (l ++ [x]).length := by simp
  refine siftdownLoop_heapOK HA HT x 0 d l.length (l ++ [x]) (anc_zero _) hlen
    ?_ ?_ ?_ j hj0 ?_ (Nat.zero_le _)
  · intro j' hj0' hjlen' _ hne
    have hj' : j' < l.length := by
      simp at hjlen'
      omega
    have hpj' : parentIdx j' < l.length := by
      unfold parentIdx
      omega
    rw [List.getD_append _ _ _ _ hj', List.getD_append _ _ _ _ hpj']
    exact hl d j' hj0' hj'
  · intro c hc hc0 hclen
    simp at hclen
    unfold parentIdx at hc
    omega
  · intro _ c hc hc0 hclen
    simp at hclen
    unfold parentIdx at hc
    omega
  · rw [siftdownLoop_length]
    unfold heappush at hjlen
    rw [siftdownLoop_length] at hjlen
    exact hjlen

/-- The `_siftup` descent loop establishes the heap property on the subtree
of `s`, given that it held on every strictly lower subtree. -/
theorem siftupLoop_heapOK {α : Type} {ltb : α → α → Bool}
    (HA : LtbAsymm ltb) (HT : LtbTrans ltb) (ni : α) (s : Nat) (d : α) :
    ∀ (fuel pos : Nat) (heap : List α), heap.length - pos ≤ fuel →
      Anc s pos → pos < heap.length →
      (∀ j, 0 < j → j < heap.length → s ≤ parentIdx j →
        (parentIdx j ≠ pos ∨ s < pos) →
        ltb (heap.getD j d) (heap.getD (parentIdx j) d) = false) →
      ScopedHeap ltb d s (siftupLoop ltb heap.length ni s heap pos) := by
  intro fuel
  induction fuel with
  | zero =>
    intro pos heap hfuel hanc hpos hinv
    omega
  | succ n ih =>
    intro pos heap hfuel hanc hpos hinv
    rw [siftupLoop]
    split
    · next hc =>
      dsimp only []
      set cp := if 2 * pos + 1 + 1 < heap.length &&
          !ltb (heap.getD (2 * pos + 1) ni) (heap.getD (2 * pos + 1 + 1) ni)
        then 2 * pos + 1 + 1 else 2 * pos + 1 with hcp
      have hcp_par : parentIdx cp = pos := by
        rw [hcp]
        unfold parentIdx
        split <;> omega
      have hcp_gt : pos < cp := by
        rw [hcp]
        split <;> omega
      have hcp_len : cp < heap.length := by
        rw [hcp]
        split
        · next hsp =>
          rw [Bool.and_eq_true] at hsp
          have := of_decide_eq_true hsp.1
          omega
        · omega
      have hcl : 2 * pos + 1 < heap.length := hc
      -- the chosen child is minimal among the children of `pos`
      have hmc : ∀ j, parentIdx j = pos → 0 < j → j < heap.length →
          ltb (heap.getD j d) (heap.getD cp d) = false := by
        intro j hj hj0 hjlen
        have hjr : j = 2 * pos + 1 ∨ j = 2 * pos + 2 := by
          unfold parentIdx at hj
          omega
        rw [hcp]
        split
        · next hsp =>
          rw [Bool.and_eq_true] at hsp
          have hr : ltb (heap.getD (2 * pos + 1) ni)
              (heap.getD (2 * pos + 1 + 1) ni) = false := by
            simpa using hsp.2
          have hrlen : 2 * pos + 1 + 1 < heap.length := by
            have := of_decide_eq_true hsp.1
            omega
          rw [getD_indep _ _ ni d hcl, getD_indep _ _ ni d hrlen] at hr
          rcases hjr with hj1 | hj1
          · subst hj1
            exact hr
          · subst hj1
            exact HA.irrefl _
        · next hsp =>
          rcases hjr with hj1 | hj1
          · subst hj1
            exact HA.irrefl _
          · subst hj1
            rw [Bool.and_eq_true, not_and] at hsp
            by_cases hrlen : 2 * pos + 1 + 1 < heap.length
            · have := hsp (by simpa using hrlen)
              have hlt : ltb (heap.getD (2 * pos + 1) ni)
                  (heap.getD (2 * pos + 1 + 1) ni) = true := by
                simpa using this
              rw [getD_indep _ _ ni d hcl, getD_indep _ _ ni d hrlen] at hlt
              exact HA _ _ hlt
            · omega
      have hvcp : heap.getD cp ni = heap.getD cp d := getD_indep _ _ _ _ hcp_len
      rw [hvcp]
      have hanc_cp : Anc s cp := hanc.step hcp_par (by omega)
      have hlen' : (heap.set pos (heap.getD cp d)).length = heap.length := by
        simp
      have hrec := ih cp (heap.set pos (heap.getD cp d))
        (by rw [hlen']; omega) hanc_cp (by rw [hlen']; exact hcp_len) ?_
      · rw [hlen'] at hrec
        exact hrec
      · intro j hj0 hjlen hjs _
        rw [hlen'] at hjlen
        by_cases hjp : j = pos
        · subst hjp
          have hpp_lt : parentIdx j < j := by
            unfold parentIdx
            omega
          have hs_lt : s < j := by omega
          rw [getD_set_self _ _ _ _ hpos,
            getD_set_ne _ _ _ (Nat.ne_of_lt hpp_lt).symm]
          have e1 : ltb (heap.getD j d) (heap.getD (parentIdx j) d) = false :=
            hinv j hj0 hjlen hjs (Or.inl (Nat.ne_of_lt hpp_lt))
          have e2 := hinv cp (by omega) hcp_len (by rw [hcp_par]; omega)
            (Or.inr hs_lt)
          rw [hcp_par] at e2
          exact HT _ _ _ e1 e2
        · rw [getD_set_ne _ _ _ (Ne.symm hjp)]
          by_cases hpj : parentIdx j = pos
          · rw [hpj, getD_set_self _ _ _ _ hpos]
            exact hmc j hpj hj0 hjlen
          · rw [getD_set_ne _ _ _ (Ne.symm hpj)]
            exact hinv j hj0 hjlen hjs (Or.inl hpj)
    · next hc =>
      have hsd := siftdownLoop_heapOK HA HT ni s d pos (heap.set pos ni)
        hanc (by simpa using hpos) ?_ ?_ ?_
      · have : (heap.set pos ni).length = heap.length := by simp
        intro j hj0 hjlen hjs
        exact hsd j hj0 hjlen hjs
      · intro j hj0 hjlen hjs hjne
        rw [List.length_set] at hjlen
        have hpj : parentIdx j ≠ pos := by
          intro hpj
          unfold parentIdx at hpj
          omega
        rw [getD_set_ne _ _ _ (Ne.symm hjne), getD_set_ne _ _ _ (Ne.symm hpj)]
        exact hinv j hj0 hjlen hjs (Or.inl hpj)
      · intro c hcpar hc0 hclen
        rw [List.length_set] at hclen
        unfold parentIdx at hcpar
        omega
      · intro _ c hcpar hc0 hclen
        rw [List.length_set] at hclen
        unfold parentIdx at hcpar
        omega

/-- `_siftup(heap, i)` repairs the subtree rooted at `i`, assuming every edge
with a strictly deeper parent already holds. -/
theorem siftup_heapOK {α : Type} {ltb : α → α → Bool}
    (HA : LtbAsymm ltb) (HT : LtbTrans ltb) (d : α) (i : Nat) (heap : List α)
    (hi : i < heap.length)
    (hpre : ∀ j, 0 < j → j < heap.length → i < parentIdx j →
      ltb (heap.getD j d) (heap.getD (parentIdx j) d) = false) :
    ∀ j, 0 < j → j < (siftup ltb heap i).length → i ≤ parentIdx j →
      ltb ((siftup ltb heap i).getD j d)
        ((siftup ltb heap i).getD (parentIdx j) d) = false := by
  unfold siftup
  split
  · next ni hni =>
    have hok := siftupLoop_heapOK HA HT ni i d (heap.length - i) i heap le_rfl
      Anc.base hi ?_
    · exact hok
    · intro j hj0 hjlen hjs hd
      rcases hd with hd | hd
      · exact hpre j hj0 hjlen (by omega)
      · omega
  · next hni =>
    rw [List.get?_eq_none] at hni
    omega

/-- The body of `heapify` establishes the heap property, given that every edge
whose parent index is at least the loop counter already holds. -/
theorem heapifyAux_heapOK {α : Type} {ltb : α → α → Bool}
    (HA : LtbAsymm ltb) (HT : LtbTrans ltb) :
    ∀ (i : Nat) (heap : List α), i ≤ heap.length →
      (∀ (d : α) (j : Nat), 0 < j → j < heap.length → i ≤ parentIdx j →
        ltb (heap.getD j d) (heap.getD (parentIdx j) d) = false) →
      IsHeapB ltb (heapifyAux ltb heap i) := by
  intro i
  induction i with
  | zero =>
    intro heap _ hpre
    intro d j hj0 hjlen
    exact hpre d j hj0 hjlen (Nat.zero_le _)
  | succ n ih =>
    intro heap hle hpre
    have hn : n < heap.length := by omega
    have hlen : (siftup ltb heap n).length = heap.length :=
      siftup_length ltb heap n
    refine ih (siftup ltb heap n) (by omega) ?_
    intro d j hj0 hjlen hjs
    rw [hlen] at hjlen
    exact siftup_heapOK HA HT d n heap hn
      (fun j' hj0' hjlen' hjs' => hpre d j' hj0' hjlen' (by omega))
      j hj0 (by rw [hlen]; exact hjlen) hjs

/-- `heapq.heapify` establishes the heap invariant on any list. -/
theorem heapify_heapOK {α : Type} {ltb : α → α → Bool}
    (HA : LtbAsymm ltb) (HT : LtbTrans ltb) (heap : List α) :
    IsHeapB ltb (heapify ltb heap) := by
  unfold heapify
  refine heapifyAux_heapOK HA HT _ heap (by omega) ?_
  intro d j hj0 hjlen hjs
  unfold parentIdx at hjs
  omega

/-- In a heap, an ancestor's value is below a descendant's value. -/
theorem heap_anc_le {α : Type} {ltb : α → α → Bool}
    (HA : LtbAsymm ltb) (HT : LtbTrans ltb) {l : List α}
    (hheap : IsHeapB ltb l) (d : α) {a : Nat} :
    ∀ {b : Nat}, Anc a b → b < l.length →
      ltb (l.getD b d) (l.getD a d) = false := by
  intro b h
  induction h with
  | base => intro _; exact HA.irrefl _
  | up hlt hp ih =>
    next p =>
    intro hb
    have hpp : parentIdx p < p := by
      unfold parentIdx
      omega
    have e := hheap d p (by omega) hb
    exact HT _ _ _ (ih (by omega)) e

/-- Two lists of the same length whose in-range `getD` values agree are
equal. -/
theorem eq_of_getD {α : Type} (d : α) {l1 l2 : List α}
    (hlen : l1.length = l2.length)
    (h : ∀ i, i < l2.length → l1.getD i d = l2.getD i d) : l1 = l2 := by
  refine List.ext_getElem hlen ?_
  intro i h1 h2
  have := h i h2
  rwa [List.getD_eq_getElem _ _ h1, List.getD_eq_getElem _ _ h2] at this

/-- On a valid heap, the ascent phase of `_siftup` puts every shifted value
back: if the entries strictly above `pos` on the chain to `s` hold their
chain-child's value, everything off the chain is untouched, and `newitem` is
the value of the subtree root `s`, then the sift-down returns the original
list. -/
theorem siftdownLoop_restore {α : Type} {ltb : α → α → Bool}
    (HA : LtbAsymm ltb) (HT : LtbTrans ltb) (HC : LtbConn ltb) (d : α)
    {l : List α} (hheap : IsHeapB ltb l) (s : Nat) (ni : α)
    (hni : ni = l.getD s d) :
    ∀ (pos : Nat) (heap : List α), Anc s pos → pos < l.length →
      heap.length = l.length →
      (∀ j, j < l.length → ¬(Anc s j ∧ Anc j pos) →
        heap.getD j d = l.getD j d) →
      (∀ c, Anc s c → Anc c pos → c ≠ s →
        heap.getD (parentIdx c) d = l.getD c d) →
      siftdownLoop ltb ni s heap pos = l := by
  intro pos
  induction pos using Nat.strong_induction_on with
  | _ pos ih =>
    intro heap hanc hpos hlen he1 he2
    have hanc_self : Anc pos pos := Anc.base
    rw [siftdownLoop]
    split
    · next hs =>
      dsimp only []
      rw [show (pos - 1) / 2 = parentIdx pos from rfl]
      have hpp_lt : parentIdx pos < pos := by
        unfold parentIdx
        omega
      have hpv : heap.getD (parentIdx pos) ni = l.getD pos d := by
        rw [getD_indep _ _ ni d (by omega)]
        exact he2 pos hanc Anc.base (by omega)
      rw [hpv]
      have hanc' : Anc s (parentIdx pos) := hanc.parent (by omega)
      split
      · next hlt =>
        refine ih (parentIdx pos) hpp_lt _ hanc' (by omega) (by simpa using hlen)
          ?_ ?_
        · intro j hj hnc
          by_cases hjp : j = pos
          · subst hjp
            rw [getD_set_self _ _ _ _ (by omega)]
          · rw [getD_set_ne _ _ _ (Ne.symm hjp)]
            refine he1 j hj ?_
            intro hc
            exact hnc ⟨hc.1, (hc.2.parent hjp)⟩
        · intro c hc1 hc2 hc3
          have hc0 : 0 < c := by
            have := hc1.le
            omega
          have hpc_lt : parentIdx c ≠ pos := by
            have h1 := hc2.le
            unfold parentIdx
            omega
          rw [getD_set_ne _ _ _ (Ne.symm hpc_lt)]
          exact he2 c hc1 (hc2.trans (Anc.up hpp_lt Anc.base)) hc3
      · next hlt =>
        have hlt' : ltb ni (l.getD pos d) = false := by simpa using hlt
        have hmono : ltb (l.getD pos d) ni = false := by
          rw [hni]
          exact heap_anc_le HA HT hheap d hanc hpos
        have heqs : ni = l.getD pos d := HC _ _ hlt' hmono
        have hchain_eq : ∀ c, Anc s c → Anc c pos → l.getD c d = l.getD s d := by
          intro c h1 h2
          have hcl : c < l.length := by
            have := h2.le
            omega
          refine HC _ _ ?_ ?_
          · exact heap_anc_le HA HT hheap d h1 hcl
          · have := heap_anc_le HA HT hheap d h2 hpos
            rw [← heqs, hni] at this
            exact this
        refine eq_of_getD d (by simpa using hlen) ?_
        intro i hi
        by_cases hip : i = pos
        · subst hip
          rw [getD_set_self _ _ _ _ (by omega)]
          exact heqs
        · rw [getD_set_ne _ _ _ (Ne.symm hip)]
          by_cases hchain : Anc s i ∧ Anc i pos
          · rcases anc_child_exists hchain.2 hip with ⟨c, hcp, hcg, hca⟩
            have hsc : Anc s c := hchain.1.step hcp (by omega)
            have := he2 c hsc hca (by have := hchain.1.le; omega)
            rw [hcp] at this
            rw [this, hchain_eq c hsc hca, hchain_eq i hchain.1 hchain.2]
          · exact he1 i hi hchain
    · next hs =>
      have hps : pos = s := Nat.le_antisymm (Nat.le_of_not_lt hs) hanc.le
      subst hps
      refine eq_of_getD d (by simpa using hlen) ?_
      intro i hi
      by_cases hip : i = pos
      · subst hip
        rw [getD_set_self _ _ _ _ (by omega)]
        exact hni
      · rw [getD_set_ne _ _ _ (Ne.symm hip)]
        refine he1 i hi ?_
        intro hc
        exact hip (Nat.le_antisymm hc.2.le hc.1.le)

/-- On a valid heap, the whole of `_siftup`'s work cancels out: descending
with the smaller child shifted up and then sifting the root value back down
reproduces the original list. -/
theorem siftupLoop_restore {α : Type} {ltb : α → α → Bool}
    (HA : LtbAsymm ltb) (HT : LtbTrans ltb) (HC : LtbConn ltb) (d : α)
    {l : List α} (hheap : IsHeapB ltb l) (s : Nat) (ni : α)
    (hni : ni = l.getD s d) :
    ∀ (fuel pos : Nat) (heap : List α), heap.length - pos ≤ fuel →
      Anc s pos → pos < l.length → heap.length = l.length →
      (∀ j, j < l.length → ¬(Anc s j ∧ Anc j pos) →
        heap.getD j d = l.getD j d) →
      (∀ c, Anc s c → Anc c pos → c ≠ s →
        heap.getD (parentIdx c) d = l.getD c d) →
      siftupLoop ltb heap.length ni s heap pos = l := by
  intro fuel
  induction fuel with
  | zero =>
    intro pos heap hfuel hanc hpos hlen he1 he2
    omega
  | succ n ih =>
    intro pos heap hfuel hanc hpos hlen he1 he2
    rw [siftupLoop]
    split
    · next hc =>
      dsimp only []
      set cp := if 2 * pos + 1 + 1 < heap.length &&
          !ltb (heap.getD (2 * pos + 1) ni) (heap.getD (2 * pos + 1 + 1) ni)
        then 2 * pos + 1 + 1 else 2 * pos + 1 with hcp
      have hcp_par : parentIdx cp = pos := by
        rw [hcp]
        unfold parentIdx
        split <;> omega
      have hcp_gt : pos < cp := by
        rw [hcp]
        split <;> omega
      have hcp_len : cp < heap.length := by
        rw [hcp]
        split
        · next hsp =>
          rw [Bool.and_eq_true] at hsp
          have := of_decide_eq_true hsp.1
          omega
        · omega
      have hcp_nc : ¬(Anc s cp ∧ Anc cp pos) := by
        intro hch
        have := hch.2.le
        omega
      have hvcp : heap.getD cp ni = l.getD cp d := by
        rw [getD_indep _ _ ni d hcp_len]
        exact he1 cp (by omega) hcp_nc
      rw [hvcp]
      have hanc_pos_cp : Anc pos cp := Anc.base.step hcp_par (by omega)
      have hanc_cp : Anc s cp := hanc.trans hanc_pos_cp
      have hlen' : (heap.set pos (l.getD cp d)).length = heap.length := by
        simp
      have hrec := ih cp (heap.set pos (l.getD cp d)) (by omega)
        hanc_cp (by omega) (by rw [hlen']; exact hlen) ?_ ?_
      · rw [hlen'] at hrec
        exact hrec
      · intro j hj hnc
        have hjp : j ≠ pos := by
          intro hj'
          subst hj'
          exact hnc ⟨hanc, hanc_pos_cp⟩
        rw [getD_set_ne _ _ _ (Ne.symm hjp)]
        refine he1 j hj ?_
        intro hch
        exact hnc ⟨hch.1, hch.2.trans hanc_pos_cp⟩
      · intro c hc1 hc2 hc3
        have hc0 : 0 < c := by
          have := hc1.le
          omega
        by_cases hpcp : parentIdx c = pos
        · have hceq : c = cp :=
            anc_parent_unique hc2 (by rw [hpcp, hcp_par]) hc0 (by omega)
          subst hceq
          rw [hpcp, getD_set_self _ _ _ _ (by omega)]
        · rw [getD_set_ne _ _ _ (Ne.symm hpcp)]
          refine he2 c hc1 ?_ hc3
          have hccp : c ≠ cp := by
            intro hceq
            subst hceq
            exact hpcp hcp_par
          have := hc2.parent hccp
          rwa [hcp_par] at this
    · next hc =>
      refine siftdownLoop_restore HA HT HC d hheap s ni hni pos
        (heap.set pos ni) hanc hpos (by simpa using hlen) ?_ ?_
      · intro j hj hnc
        have hjp : j ≠ pos := by
          intro hj'
          subst hj'
          exact hnc ⟨hanc, Anc.base⟩
        rw [getD_set_ne _ _ _ (Ne.symm hjp)]
        exact he1 j hj hnc
      · intro c hc1 hc2 hc3
        have hc0 : 0 < c := by
          have := hc1.le
          omega
        have hpcp : parentIdx c ≠ pos := by
          have := hc2.le
          unfold parentIdx
          omega
        rw [getD_set_ne _ _ _ (Ne.symm hpcp)]
        exact he2 c hc1 hc2 hc3

/-- `_siftup` does not change a list that is already a heap. -/
theorem siftup_id {α : Type} {ltb : α → α → Bool}
    (HA : LtbAsymm ltb) (HT : LtbTrans ltb) (HC : LtbConn ltb)
    {l : List α} (hheap : IsHeapB ltb l) (i : Nat) (hi : i < l.length) :
    siftup ltb l i = l := by
  unfold siftup
  split
  · next ni hni =>
    have hval : ni = l.getD i ni := by
      rcases List.get?_eq_some.mp hni with ⟨h, hv⟩
      rw [List.getD_eq_getElem _ _ hi]
      simp only [List.get_eq_getElem] at hv
      exact hv.symm
    refine siftupLoop_restore HA HT HC ni hheap i ni hval
      (l.length - i) i l le_rfl Anc.base hi rfl ?_ ?_
    · intro j _ _
      rfl
    · intro c hc1 hc2 hc3
      exact absurd (Nat.le_antisymm hc2.le hc1.le) hc3
  · next hni =>
    rfl

/-- The `heapify` loop does not change a list that is already a heap. -/
theorem heapifyAux_id {α : Type} {ltb : α → α → Bool}
    (HA : LtbAsymm ltb) (HT : LtbTrans ltb) (HC : LtbConn ltb)
    {l : List α} (hheap : IsHeapB ltb l) :
    ∀ i, i ≤ l.length → heapifyAux ltb l i = l := by
  intro i
  induction i with
  | zero => intro _; rfl
  | succ n ih =>
    intro hle
    show heapifyAux ltb (siftup ltb l n) n = l
    rw [siftup_id HA HT HC hheap n (by omega)]
    exact ih (by omega)

/-- `heapq.heapify` does not change a list that is already a heap. -/
theorem heapify_id {α : Type} {ltb : α → α → Bool}
    (HA : LtbAsymm ltb) (HT : LtbTrans ltb) (HC : LtbConn ltb)
    {l : List α} (hheap : IsHeapB ltb l) : heapify ltb l = l := by
  unfold heapify
  exact heapifyAux_id HA HT HC hheap _ (by omega)

/-! ### Trie lemmas, part 1: the children dict -/

/-- Unfolding `lookupChild` over a cons. -/
theorem lookupChild_cons (k k0 : Char) (t0 : TrieNode) (rest) :
    lookupChild k ((k0, t0) :: rest) =
      if k0 = k then some t0 else lookupChild k rest := rfl

/-- Unfolding `setChild` over a cons. -/
theorem setChild_cons (k : Char) (v : TrieNode) (k0 : Char) (t0 : TrieNode)
    (rest) :
    setChild k v ((k0, t0) :: rest) =
      (if k0 = k then (k, v) else (k0, t0)) :: setChild k v rest := by
  by_cases h : k0 = k <;> simp [setChild, h]

/-- Unfolding `removeChild` over a cons. -/
theorem removeChild_cons (k k0 : Char) (t0 : TrieNode) (rest) :
    removeChild k ((k0, t0) :: rest) =
      if k0 = k then rest else (k0, t0) :: removeChild k rest := by
  by_cases h : k0 = k <;> simp [removeChild, List.eraseP_cons, h]

/-- Updating a key's value changes only that key's lookup. -/
theorem lookupChild_setChild_eq (k : Char) (v : TrieNode) :
    ∀ cs, lookupChild k (setChild k v cs) =
      (lookupChild k cs).map (fun _ => v)
  | [] => rfl
  | (k0, t0) :: rest => by
    by_cases hk : k0 = k
    · rw [setChild_cons, if_pos hk]
      rw [lookupChild_cons, lookupChild_cons, if_pos rfl, if_pos hk]
      rfl
    · rw [setChild_cons, if_neg hk]
      rw [lookupChild_cons, lookupChild_cons, if_neg hk, if_neg hk]
      exact lookupChild_setChild_eq k v rest

/-- Updating a key's value leaves other lookups unchanged. -/
theorem lookupChild_setChild_ne (k k' : Char) (v : TrieNode) (h : k' ≠ k) :
    ∀ cs, lookupChild k' (setChild k v cs) = lookupChild k' cs
  | [] => rfl
  | (k0, t0) :: rest => by
    by_cases hk : k0 = k
    · rw [setChild_cons, if_pos hk]
      rw [lookupChild_cons, lookupChild_cons, if_neg (Ne.symm h),
        if_neg (fun hh => h (hh.symm.trans hk))]
      exact lookupChild_setChild_ne k k' v h rest
    · rw [setChild_cons, if_neg hk]
      rw [lookupChild_cons, lookupChild_cons]
      by_cases hk' : k0 = k'
      · rw [if_pos hk', if_pos hk']
      · rw [if_neg hk', if_neg hk']
        exact lookupChild_setChild_ne k k' v h rest

/-- Appending an entry for a fresh key leaves other lookups unchanged. -/
theorem lookupChild_append_ne (k k' : Char) (w : TrieNode) (h : k' ≠ k) :
    ∀ cs, lookupChild k' (cs ++ [(k, w)]) = lookupChild k' cs
  | [] => by
    show lookupChild k' [(k, w)] = none
    rw [lookupChild_cons, if_neg (Ne.symm h)]
    rfl
  | (k0, t0) :: rest => by
    rw [List.cons_append, lookupChild_cons, lookupChild_cons]
    by_cases hk : k0 = k'
    · rw [if_pos hk, if_pos hk]
    · rw [if_neg hk, if_neg hk]
      exact lookupChild_append_ne k k' w h rest

/-- Appending an entry for an absent key makes its lookup find it. -/
theorem lookupChild_append_none (k : Char) (w : TrieNode) :
    ∀ cs, lookupChild k cs = none →
      lookupChild k (cs ++ [(k, w)]) = some w
  | [], _ => by
    show lookupChild k [(k, w)] = some w
    rw [lookupChild_cons, if_pos rfl]
  | (k0, t0) :: rest, h => by
    rw [lookupChild_cons] at h
    by_cases hk : k0 = k
    · rw [if_pos hk] at h
      exact absurd h (by simp)
    · rw [if_neg hk] at h
      rw [List.cons_append, lookupChild_cons, if_neg hk]
      exact lookupChild_append_none k w rest h

/-- A failed lookup means the key is not in the dict. -/
theorem lookupChild_eq_none_iff (k : Char) :
    ∀ cs, lookupChild k cs = none ↔ k ∉ keysOf cs
  | [] => by
    constructor
    · intro _ hmem
      simp [keysOf] at hmem
    · intro _
      rfl
  | (k0, t0) :: rest => by
    rw [lookupChild_cons]
    unfold keysOf
    rw [List.map_cons]
    by_cases hk : k0 = k
    · rw [if_pos hk]
      constructor
      · intro h
        exact absurd h (by simp)
      · intro h
        exact absurd (by simp [hk]) h
    · rw [if_neg hk]
      rw [lookupChild_eq_none_iff k rest]
      unfold keysOf
      constructor
      · intro h hmem
        rcases List.mem_cons.mp hmem with h1 | h1
        · exact hk h1.symm
        · exact h h1
      · intro h hmem
        exact h (List.mem_cons_of_mem _ hmem)

/-- A successful lookup produces a member of the dict. -/
theorem lookupChild_mem (k : Char) :
    ∀ cs (t : TrieNode), lookupChild k cs = some t → (k, t) ∈ cs
  | [], t, h => by
    exact absurd h (by simp [lookupChild])
  | (k0, t0) :: rest, t, h => by
    rw [lookupChild_cons] at h
    by_cases hk : k0 = k
    · rw [if_pos hk] at h
      subst hk
      rw [Option.some_inj] at h
      subst h
      exact List.mem_cons_self _ _
    · rw [if_neg hk] at h
      exact List.mem_cons_of_mem _ (lookupChild_mem k rest t h)

/-- Updating an absent key is the identity. -/
theorem setChild_absent (k : Char) (v : TrieNode) :
    ∀ cs, k ∉ keysOf cs → setChild k v cs = cs
  | [], _ => rfl
  | (k0, t0) :: rest, h => by
    unfold keysOf at h
    rw [List.map_cons] at h
    have hk : k0 ≠ k := by
      intro hk
      exact h (by simp [hk])
    rw [setChild_cons, if_neg hk,
      setChild_absent k v rest (fun hmem => h (List.mem_cons_of_mem _ hmem))]

/-- Updating a key with the value it already has is the identity, in a
duplicate-free dict. -/
theorem setChild_same (k : Char) :
    ∀ cs (t : TrieNode), (keysOf cs).Nodup → lookupChild k cs = some t →
      setChild k t cs = cs
  | [], t, _, h => by
    exact absurd h (by simp [lookupChild])
  | (k0, t0) :: rest, t, hnd, h => by
    unfold keysOf at hnd
    rw [List.map_cons, List.nodup_cons] at hnd
    rw [lookupChild_cons] at h
    by_cases hk : k0 = k
    · rw [if_pos hk] at h
      rw [Option.some_inj] at h
      subst h
      subst hk
      rw [setChild_cons, if_pos rfl, setChild_absent k0 t0 rest hnd.1]
    · rw [if_neg hk] at h
      rw [setChild_cons, if_neg hk, setChild_same k rest t hnd.2 h]

/-- Members of an updated dict are old members or the new binding. -/
theorem mem_setChild {k : Char} {v : TrieNode} {cs} {e : Char × TrieNode}
    (h : e ∈ setChild k v cs) : e ∈ cs ∨ e = (k, v) := by
  unfold setChild at h
  rcases List.mem_map.mp h with ⟨e', he', heq⟩
  by_cases hk : e'.1 = k
  · rw [if_pos hk] at heq
    exact Or.inr heq.symm
  · rw [if_neg hk] at heq
    exact Or.inl (heq ▸ he')

/-- The keys of an updated dict are unchanged. -/
theorem keysOf_setChild (k : Char) (v : TrieNode) (cs : List (Char × TrieNode)) :
    keysOf (setChild k v cs) = keysOf cs := by
  unfold keysOf setChild
  rw [List.map_map]
  refine List.map_congr_left ?_
  intro e _
  by_cases hk : e.1 = k
  · simp only [Function.comp_apply, if_pos hk]
    exact hk.symm
  · simp only [Function.comp_apply, if_neg hk]

/-- Removing a key leaves other lookups unchanged. -/
theorem lookupChild_removeChild_ne (k k' : Char) (h : k' ≠ k) :
    ∀ cs, lookupChild k' (removeChild k cs) = lookupChild k' cs
  | [] => rfl
  | (k0, t0) :: rest => by
    by_cases hk : k0 = k
    · rw [removeChild_cons, if_pos hk, lookupChild_cons,
        if_neg (fun hh => h (hh.symm.trans hk))]
    · rw [removeChild_cons, if_neg hk, lookupChild_cons, lookupChild_cons]
      by_cases hk' : k0 = k'
      · rw [if_pos hk', if_pos hk']
      · rw [if_neg hk', if_neg hk']
        exact lookupChild_removeChild_ne k k' h rest

/-- In a duplicate-free dict, removing a key makes its lookup fail. -/
theorem lookupChild_removeChild_self (k : Char) :
    ∀ cs, (keysOf cs).Nodup →
      lookupChild k (removeChild k cs) = none
  | [], _ => rfl
  | (k0, t0) :: rest, hnd => by
    unfold keysOf at hnd
    rw [List.map_cons, List.nodup_cons] at hnd
    by_cases hk : k0 = k
    · rw [removeChild_cons, if_pos hk, lookupChild_eq_none_iff, ← hk]
      exact hnd.1
    · rw [removeChild_cons, if_neg hk, lookupChild_cons, if_neg hk]
      exact lookupChild_removeChild_self k rest hnd.2

/-- Members of a pruned dict are members of the original. -/
theorem mem_removeChild {k : Char} {cs} {e : Char × TrieNode}
    (h : e ∈ removeChild k cs) : e ∈ cs :=
  (List.eraseP_sublist cs).mem h

/-- The keys of a pruned dict form a sublist of the original keys. -/
theorem keysOf_removeChild_sublist (k : Char) (cs : List (Char × TrieNode)) :
    List.Sublist (keysOf (removeChild k cs)) (keysOf cs) :=
  List.Sublist.map Prod.fst (List.eraseP_sublist cs)

/-! ### Trie lemmas, part 2: paths, insertion and deletion -/

/-- Well-formedness inherited from Python dicts: at every node the children
keys are pairwise distinct. -/
inductive WFt : TrieNode → Prop
  | mk {c : Option Contact} {cs : List (Char × TrieNode)}
      (hnd : (keysOf cs).Nodup)
      (hch : ∀ k t, (k, t) ∈ cs → WFt t) : WFt (.node c cs)

/-- The keys of a well-formed node are distinct. -/
theorem WFt.nodup {c cs} (h : WFt (.node c cs)) : (keysOf cs).Nodup := by
  cases h with
  | mk hnd _ => exact hnd

/-- Children of a well-formed node are well-formed. -/
theorem WFt.child {c cs} (h : WFt (.node c cs)) {k : Char} {t : TrieNode}
    (hm : (k, t) ∈ cs) : WFt t := by
  cases h with
  | mk _ hch => exact hch k t hm

/-- Unfolding `searchPath` on the empty path. -/
theorem searchPath_nil (c : Option Contact) (cs) :
    searchPath (.node c cs) [] = c := rfl

/-- `searchPath` steps into the looked-up child. -/
theorem searchPath_cons_some {k : Char} {cs} {ch : TrieNode}
    (h : lookupChild k cs = some ch) (c : Option Contact) (q : List Char) :
    searchPath (.node c cs) (k :: q) = searchPath ch q := by
  simp [searchPath, h]

/-- `searchPath` fails when the child is missing. -/
theorem searchPath_cons_none {k : Char} {cs}
    (h : lookupChild k cs = none) (c : Option Contact) (q : List Char) :
    searchPath (.node c cs) (k :: q) = none := by
  simp [searchPath, h]

/-- A fresh node holds nothing. -/
theorem searchPath_empty : ∀ q, searchPath (.node none []) q = none
  | [] => rfl
  | k :: q =>
    searchPath_cons_none (show lookupChild k [] = none from rfl) none q

/-- Unfolding `insertPath` on the empty path. -/
theorem insertPath_nil (c0 : Option Contact) (cs) (c : Contact) :
    insertPath (.node c0 cs) [] c = .node (some c) cs := rfl

/-- Unfolding `insertPath` into an existing child. -/
theorem insertPath_cons_some {k : Char} {cs} {ch : TrieNode}
    (h : lookupChild k cs = some ch) (c0 : Option Contact) (p : List Char)
    (c : Contact) :
    insertPath (.node c0 cs) (k :: p) c =
      .node c0 (setChild k (insertPath ch p c) cs) := by
  simp [insertPath, h]

/-- Unfolding `insertPath` into a fresh child. -/
theorem insertPath_cons_none {k : Char} {cs}
    (h : lookupChild k cs = none) (c0 : Option Contact) (p : List Char)
    (c : Contact) :
    insertPath (.node c0 cs) (k :: p) c =
      .node c0 (cs ++ [(k, insertPath (.node none []) p c)]) := by
  simp [insertPath, h]

/-- `insert` stores the record at its lowered path and changes no other
path. -/
theorem searchPath_insertPath :
    ∀ (p : List Char) (t : TrieNode) (c : Contact) (q : List Char),
      searchPath (insertPath t p c) q =
        if q = p then some c else searchPath t q := by
  intro p
  induction p with
  | nil =>
    intro t c q
    cases t with
    | node c0 cs =>
      rw [insertPath_nil]
      cases q with
      | nil =>
        rw [if_pos rfl, searchPath_nil]
      | cons k q' =>
        rw [if_neg (by simp)]
        cases hlk : lookupChild k cs with
        | some ch =>
          rw [searchPath_cons_some hlk, searchPath_cons_some hlk]
        | none =>
          rw [searchPath_cons_none hlk, searchPath_cons_none hlk]
  | cons k p' ih =>
    intro t c q
    cases t with
    | node c0 cs =>
      cases hlk : lookupChild k cs with
      | some ch =>
        rw [insertPath_cons_some hlk]
        cases q with
        | nil =>
          rw [if_neg (by simp), searchPath_nil, searchPath_nil]
        | cons k' q' =>
          by_cases hk : k' = k
          · subst hk
            have hlk2 : lookupChild k' (setChild k' (insertPath ch p' c) cs) =
                some (insertPath ch p' c) := by
              rw [lookupChild_setChild_eq, hlk]
              rfl
            rw [searchPath_cons_some hlk2, ih ch c q', searchPath_cons_some hlk]
            by_cases hq : q' = p'
            · rw [if_pos hq, if_pos (by rw [hq])]
            · rw [if_neg hq, if_neg (by simp [hq])]
          · rw [if_neg (by simp [hk])]
            cases hlk' : lookupChild k' cs with
            | some ch2 =>
              rw [searchPath_cons_some
                  (by rw [lookupChild_setChild_ne k k' _ hk]; exact hlk'),
                searchPath_cons_some hlk']
            | none =>
              rw [searchPath_cons_none
                  (by rw [lookupChild_setChild_ne k k' _ hk]; exact hlk'),
                searchPath_cons_none hlk']
      | none =>
        rw [insertPath_cons_none hlk]
        cases q with
        | nil =>
          rw [if_neg (by simp), searchPath_nil, searchPath_nil]
        | cons k' q' =>
          by_cases hk : k' = k
          · subst hk
            have hlk2 : lookupChild k' (cs ++ [(k', insertPath (.node none []) p' c)]) =
                some (insertPath (.node none []) p' c) :=
              lookupChild_append_none _ _ _ hlk
            rw [searchPath_cons_some hlk2, ih (.node none []) c q',
              searchPath_cons_none hlk, searchPath_empty]
            by_cases hq : q' = p'
            · rw [if_pos hq, if_pos (by rw [hq])]
            · rw [if_neg hq, if_neg (by simp [hq])]
          · rw [if_neg (by simp [hk])]
            cases hlk' : lookupChild k' cs with
            | some ch2 =>
              rw [searchPath_cons_some
                  (by rw [lookupChild_append_ne k k' _ hk]; exact hlk'),
                searchPath_cons_some hlk']
            | none =>
              rw [searchPath_cons_none
                  (by rw [lookupChild_append_ne k k' _ hk]; exact hlk'),
                searchPath_cons_none hlk']

/-- Unfolding `_delete` at the end of the path with no stored record. -/
theorem deleteAux_nil_none (cs) :
    deleteAux (.node none cs) [] = (.node none cs, false) := rfl

/-- Unfolding `_delete` at the end of the path with a stored record. -/
theorem deleteAux_nil_some (x : Contact) (cs) :
    deleteAux (.node (some x) cs) [] = (.node none cs, cs.isEmpty) := rfl

/-- Unfolding `_delete` when the next child is missing. -/
theorem deleteAux_cons_none {k : Char} {cs} (h : lookupChild k cs = none)
    (c0 : Option Contact) (rest : List Char) :
    deleteAux (.node c0 cs) (k :: rest) = (.node c0 cs, false) := by
  simp [deleteAux, h]

/-- Unfolding `_delete` into an existing child. -/
theorem deleteAux_cons_some {k : Char} {cs} {ch : TrieNode}
    (h : lookupChild k cs = some ch) (c0 : Option Contact) (rest : List Char) :
    deleteAux (.node c0 cs) (k :: rest) =
      if (deleteAux ch rest).2 then
        (.node c0 (removeChild k cs), (removeChild k cs).isEmpty && c0.isNone)
      else (.node c0 (setChild k (deleteAux ch rest).1 cs), false) := by
  simp [deleteAux, h]

/-- `_delete` removes exactly the record at its path: the pruning flag is
raised only on a node that has become fully empty, and every other path's
lookup is unchanged. -/
theorem deleteAux_spec :
    ∀ (p : List Char) (t : TrieNode), WFt t →
      ((deleteAux t p).2 = true → (deleteAux t p).1 = .node none []) ∧
      (∀ q, searchPath (deleteAux t p).1 q =
        if q = p then none else searchPath t q) := by
  intro p
  induction p with
  | nil =>
    intro t _
    cases t with
    | node c0 cs =>
      cases c0 with
      | none =>
        rw [deleteAux_nil_none]
        refine ⟨by intro h; exact absurd h (by simp), ?_⟩
        intro q
        cases q with
        | nil =>
          rw [if_pos rfl]
          rfl
        | cons k q' =>
          rw [if_neg (by simp)]
      | some x =>
        rw [deleteAux_nil_some]
        constructor
        · intro h
          simp only [List.isEmpty_iff] at h
          rw [h]
        · intro q
          cases q with
          | nil => rw [if_pos rfl, searchPath_nil]
          | cons k q' =>
            rw [if_neg (by simp)]
            cases hlk : lookupChild k cs with
            | some ch =>
              rw [searchPath_cons_some hlk, searchPath_cons_some hlk]
            | none =>
              rw [searchPath_cons_none hlk, searchPath_cons_none hlk]
  | cons k p' ih =>
    intro t hwf
    cases t with
    | node c0 cs =>
      cases hlk : lookupChild k cs with
      | none =>
        rw [deleteAux_cons_none hlk]
        refine ⟨by intro h; exact absurd h (by simp), ?_⟩
        intro q
        by_cases hq : q = k :: p'
        · rw [if_pos hq, hq, searchPath_cons_none hlk]
        · rw [if_neg hq]
      | some ch =>
        have hwfch : WFt ch := hwf.child (lookupChild_mem k cs ch hlk)
        rcases ih ch hwfch with ⟨ihflag, ihsearch⟩
        rw [deleteAux_cons_some hlk]
        by_cases hb : (deleteAux ch p').2 = true
        · rw [if_pos hb]
          constructor
          · intro h
            rw [Bool.and_eq_true, List.isEmpty_iff, Option.isNone_iff_eq_none] at h
            rw [h.1, h.2]
          · intro q
            cases q with
            | nil =>
              rw [if_neg (by simp), searchPath_nil, searchPath_nil]
            | cons k' q' =>
              by_cases hk : k' = k
              · subst hk
                have hlk2 : lookupChild k' (removeChild k' cs) = none :=
                  lookupChild_removeChild_self k' cs hwf.nodup
                rw [searchPath_cons_none hlk2]
                by_cases hq : q' = p'
                · rw [if_pos (by rw [hq])]
                · rw [if_neg (by simp [hq]), searchPath_cons_some hlk]
                  have := ihsearch q'
                  rw [ihflag hb, searchPath_empty, if_neg hq] at this
                  exact this
              · rw [if_neg (by simp [hk])]
                cases hlk' : lookupChild k' cs with
                | some ch2 =>
                  rw [searchPath_cons_some
                      (by rw [lookupChild_removeChild_ne k k' hk]; exact hlk'),
                    searchPath_cons_some hlk']
                | none =>
                  rw [searchPath_cons_none
                      (by rw [lookupChild_removeChild_ne k k' hk]; exact hlk'),
                    searchPath_cons_none hlk']
        · rw [if_neg hb]
          refine ⟨by intro h; exact absurd h (by simp), ?_⟩
          intro q
          cases q with
          | nil =>
            rw [if_neg (by simp), searchPath_nil, searchPath_nil]
          | cons k' q' =>
            by_cases hk : k' = k
            · subst hk
              have hlk2 : lookupChild k' (setChild k' (deleteAux ch p').1 cs) =
                  some (deleteAux ch p').1 := by
                rw [lookupChild_setChild_eq, hlk]
                rfl
              rw [searchPath_cons_some hlk2, ihsearch q', searchPath_cons_some hlk]
              by_cases hq : q' = p'
              · rw [if_pos hq, if_pos (by rw [hq])]
              · rw [if_neg hq, if_neg (by simp [hq])]
            · rw [if_neg (by simp [hk])]
              cases hlk' : lookupChild k' cs with
              | some ch2 =>
                rw [searchPath_cons_some
                    (by rw [lookupChild_setChild_ne k k' _ hk]; exact hlk'),
                  searchPath_cons_some hlk']
              | none =>
                rw [searchPath_cons_none
                    (by rw [lookupChild_setChild_ne k k' _ hk]; exact hlk'),
                  searchPath_cons_none hlk']

/-- `_delete` of an absent record does not touch the trie at all. -/
theorem deleteAux_noop :
    ∀ (p : List Char) (t : TrieNode), WFt t → searchPath t p = none →
      deleteAux t p = (t, false) := by
  intro p
  induction p with
  | nil =>
    intro t _ habs
    cases t with
    | node c0 cs =>
      rw [searchPath_nil] at habs
      subst habs
      rw [deleteAux_nil_none]
  | cons k p' ih =>
    intro t hwf habs
    cases t with
    | node c0 cs =>
      cases hlk : lookupChild k cs with
      | none => rw [deleteAux_cons_none hlk]
      | some ch =>
        rw [searchPath_cons_some hlk] at habs
        have hwfch : WFt ch := hwf.child (lookupChild_mem k cs ch hlk)
        have hch := ih ch hwfch habs
        rw [deleteAux_cons_some hlk, hch]
        rw [if_neg (by simp)]
        rw [setChild_same k cs ch hwf.nodup hlk]

/-- `insert` keeps the trie well-formed. -/
theorem WFt_insertPath :
    ∀ (p : List Char) (t : TrieNode) (c : Contact), WFt t →
      WFt (insertPath t p c) := by
  intro p
  induction p with
  | nil =>
    intro t c hwf
    cases t with
    | node c0 cs =>
      rw [insertPath_nil]
      exact WFt.mk hwf.nodup (fun k t hm => hwf.child hm)
  | cons k p' ih =>
    intro t c hwf
    cases t with
    | node c0 cs =>
      cases hlk : lookupChild k cs with
      | some ch =>
        rw [insertPath_cons_some hlk]
        refine WFt.mk (by rw [keysOf_setChild]; exact hwf.nodup) ?_
        intro k' t' hm
        rcases mem_setChild hm with hm | hm
        · exact hwf.child hm
        · rw [Prod.mk.injEq] at hm
          rw [hm.2]
          exact ih ch c (hwf.child (lookupChild_mem k cs ch hlk))
      | none =>
        rw [insertPath_cons_none hlk]
        have hknot : k ∉ keysOf cs := (lookupChild_eq_none_iff k cs).mp hlk
        refine WFt.mk ?_ ?_
        · unfold keysOf
          rw [List.map_append]
          rw [List.nodup_append]
          refine ⟨hwf.nodup, by simp, ?_⟩
          intro a ha hb
          simp at hb
          subst hb
          exact hknot ha
        · intro k' t' hm
          rcases List.mem_append.mp hm with hm | hm
          · exact hwf.child hm
          · simp at hm
            rw [hm.2]
            exact ih _ c (WFt.mk (by simp [keysOf]) (by intro k t h; simp at h))

/-- `_delete` keeps the trie well-formed. -/
theorem WFt_deleteAux :
    ∀ (p : List Char) (t : TrieNode), WFt t → WFt (deleteAux t p).1 := by
  intro p
  induction p with
  | nil =>
    intro t hwf
    cases t with
    | node c0 cs =>
      cases c0 with
      | none =>
        rw [deleteAux_nil_none]
        exact WFt.mk hwf.nodup (fun k t hm => hwf.child hm)
      | some x =>
        rw [deleteAux_nil_some]
        exact WFt.mk hwf.nodup (fun k t hm => hwf.child hm)
  | cons k p' ih =>
    intro t hwf
    cases t with
    | node c0 cs =>
      cases hlk : lookupChild k cs with
      | none =>
        rw [deleteAux_cons_none hlk]
        exact hwf
      | some ch =>
        rw [deleteAux_cons_some hlk]
        by_cases hb : (deleteAux ch p').2 = true
        · rw [if_pos hb]
          refine WFt.mk ?_ ?_
          · exact (keysOf_removeChild_sublist k cs).nodup hwf.nodup
          · intro k' t' hm
            exact hwf.child (mem_removeChild hm)
        · rw [if_neg hb]
          refine WFt.mk (by rw [keysOf_setChild]; exact hwf.nodup) ?_
          intro k' t' hm
          rcases mem_setChild hm with hm | hm
          · exact hwf.child hm
          · rw [Prod.mk.injEq] at hm
            rw [hm.2]
            exact ih ch (hwf.child (lookupChild_mem k cs ch hlk))

/-- Every record reachable in the trie is stored under its own case-folded
name (maintained by `insert`, which writes the record at exactly that path). -/
def PathInv (t : TrieNode) : Prop :=
  ∀ p c, searchPath t p = some c → foldStr c.name = p

/-- The empty trie satisfies the path invariant and is well-formed. -/
theorem wf_empty : WFt (.node none []) ∧ PathInv (.node none []) := by
  constructor
  · exact WFt.mk (by simp [keysOf]) (by intro k t h; simp at h)
  · intro p c h
    rw [searchPath_empty] at h
    exact absurd h (by simp)

/-- `ContactTrie.insert` preserves the path invariant. -/
theorem PathInv_insertC {t : TrieNode} (hinv : PathInv t)
    (name phone email : String) : PathInv (insertC t name phone email) := by
  intro p c h
  unfold insertC at h
  rw [searchPath_insertPath] at h
  by_cases hp : p = foldStr name
  · rw [if_pos hp] at h
    rw [Option.some_inj] at h
    rw [← h, hp]
  · rw [if_neg hp] at h
    exact hinv p c h

/-- `ContactTrie.delete` preserves the path invariant. -/
theorem PathInv_deleteC {t : TrieNode} (hwf : WFt t) (hinv : PathInv t)
    (name : String) : PathInv (deleteC t name) := by
  intro p c h
  unfold deleteC at h
  rw [(deleteAux_spec (foldStr name) t hwf).2 p] at h
  by_cases hp : p = foldStr name
  · rw [if_pos hp] at h
    exact absurd h (by simp)
  · rw [if_neg hp] at h
    exact hinv p c h

/-- `ContactTrie.insert` preserves well-formedness. -/
theorem WFt_insertC {t : TrieNode} (hwf : WFt t) (name phone email : String) :
    WFt (insertC t name phone email) :=
  WFt_insertPath (foldStr name) t _ hwf

/-- `ContactTrie.delete` preserves well-formedness. -/
theorem WFt_deleteC {t : TrieNode} (hwf : WFt t) (name : String) :
    WFt (deleteC t name) :=
  WFt_deleteAux (foldStr name) t hwf

/-! ### Trie lemmas, part 3: the sorted traversal -/

/-- Induction over the trie through dict lookups. -/
theorem trie_ind (P : TrieNode → Prop)
    (h : ∀ c cs, (∀ k t, lookupChild k cs = some t → P t) → P (.node c cs)) :
    ∀ t, P t
  | .node c cs => h c cs (fun _ t hk => trie_ind P h t)
termination_by t => sizeOf t
decreasing_by
  have h1 := lookupChild_sizeOf hk
  simp
  omega

/-- Proof-side companion of `collect`: the traversal together with the
relative path of every visited record. -/
def entries (t : TrieNode) : List (List Char × Contact) :=
  match t with
  | .node c cs =>
    (match c with
     | some x => [(([] : List Char), x)]
     | none => []) ++
    ((keysOf cs).mergeSort chLe).flatMap (fun k =>
      match h : lookupChild k cs with
      | some t' => (entries t').map (fun e => (k :: e.1, e.2))
      | none => [])
termination_by sizeOf t
decreasing_by
  have h1 := lookupChild_sizeOf h
  simp
  omega

/-- Unfolding `collect` with the lookup match made plain. -/
theorem collect_node (c : Option Contact) (cs) :
    collect (.node c cs) =
      (match c with
       | some x => [x]
       | none => []) ++
      ((keysOf cs).mergeSort chLe).flatMap (fun k =>
        match lookupChild k cs with
        | some t' => collect t'
        | none => []) := by
  rw [collect.eq_def]
  dsimp only []
  congr 1
  refine List.flatMap_congr ?_
  intro k _
  cases hlk : lookupChild k cs <;> simp

/-- Unfolding `entries` with the lookup match made plain. -/
theorem entries_node (c : Option Contact) (cs) :
    entries (.node c cs) =
      (match c with
       | some x => [(([] : List Char), x)]
       | none => []) ++
      ((keysOf cs).mergeSort chLe).flatMap (fun k =>
        match lookupChild k cs with
        | some t' => (entries t').map (fun e => (k :: e.1, e.2))
        | none => []) := by
  rw [entries.eq_def]
  dsimp only []
  congr 1
  refine List.flatMap_congr ?_
  intro k _
  cases hlk : lookupChild k cs <;> simp

/-- `collect` lists the records of `entries` in order. -/
theorem collect_eq_entries : ∀ t, collect t = (entries t).map Prod.snd := by
  refine trie_ind _ ?_
  intro c cs ih
  rw [collect_node, entries_node, List.map_append, List.map_flatMap]
  congr 1
  · cases c <;> simp
  · refine List.flatMap_congr ?_
    intro k _
    cases hlk : lookupChild k cs with
    | some t' =>
      simp only []
      rw [List.map_map]
      rw [ih k t' hlk]
      rfl
    | none => rfl

/-- The traversal visits exactly the records reachable by `searchPath`,
keyed by their relative paths. -/
theorem entries_mem :
    ∀ (t : TrieNode) (p : List Char) (c : Contact),
      (p, c) ∈ entries t ↔ searchPath t p = some c := by
  refine trie_ind _ ?_
  intro c0 cs ih
  intro p c
  rw [entries_node]
  constructor
  · intro hm
    rcases List.mem_append.mp hm with hm | hm
    · cases c0 with
      | none => exact absurd hm (by simp)
      | some x =>
        simp only [List.mem_singleton, Prod.mk.injEq] at hm
        rw [hm.1, searchPath_nil, hm.2]
    · rcases List.mem_flatMap.mp hm with ⟨k, hk, hbr⟩
      cases hlk : lookupChild k cs with
      | none =>
        rw [hlk] at hbr
        exact absurd hbr (by simp)
      | some t' =>
        rw [hlk] at hbr
        rcases List.mem_map.mp hbr with ⟨⟨p', c'⟩, hmem, heq⟩
        rw [Prod.mk.injEq] at heq
        rw [← heq.1, ← heq.2, searchPath_cons_some hlk]
        exact (ih k t' hlk p' c').mp hmem
  · intro hs
    cases p with
    | nil =>
      rw [searchPath_nil] at hs
      subst hs
      exact List.mem_append.mpr (Or.inl (by simp))
    | cons k p' =>
      cases hlk : lookupChild k cs with
      | none =>
        rw [searchPath_cons_none hlk] at hs
        exact absurd hs (by simp)
      | some t' =>
        rw [searchPath_cons_some hlk] at hs
        refine List.mem_append.mpr (Or.inr ?_)
        refine List.mem_flatMap.mpr ⟨k, ?_, ?_⟩
        · rw [List.mem_mergeSort]
          unfold keysOf
          exact List.mem_map_of_mem Prod.fst (lookupChild_mem k cs t' hlk)
        · rw [hlk]
          exact List.mem_map.mpr ⟨(p', c), (ih k t' hlk p' c).mpr hs, rfl⟩

/-- `chLe` is transitive. -/
theorem chLe_trans : ∀ (a b c : Char), chLe a b → chLe b c → chLe a c := by
  intro a b c h1 h2
  unfold chLe at h1 h2 ⊢
  exact decide_eq_true_eq.mpr
    (le_trans (of_decide_eq_true h1) (of_decide_eq_true h2))

/-- `chLe` is total. -/
theorem chLe_total : ∀ (a b : Char), chLe a b || chLe b a := by
  intro a b
  unfold chLe
  rcases le_total a b with h | h
  · rw [decide_eq_true h]
    rfl
  · rw [decide_eq_true h]
    simp

/-- Strict lexicographic order on paths is asymmetric. -/
theorem lexLt_asymm {a b : List Char}
    (h1 : List.Lex (· < ·) a b) (h2 : List.Lex (· < ·) b a) : False :=
  asymm h1 h2

/-- The relative paths of the traversal appear in strictly increasing
lexicographic order. -/
theorem entries_sorted :
    ∀ t, WFt t →
      (entries t).Pairwise (fun a b => List.Lex (· < ·) a.1 b.1) := by
  refine trie_ind _ ?_
  intro c0 cs ih hwf
  rw [entries_node]
  rw [List.pairwise_append]
  refine ⟨?_, ?_, ?_⟩
  · cases c0 <;> simp
  · rw [List.pairwise_flatMap]
    constructor
    · intro k hk
      cases hlk : lookupChild k cs with
      | none => simp
      | some t' =>
        simp only []
        rw [List.pairwise_map]
        refine (ih k t' hlk (hwf.child (lookupChild_mem k cs t' hlk))).imp ?_
        intro a b hab
        exact List.Lex.cons hab
    · have hsorted : ((keysOf cs).mergeSort chLe).Pairwise
          (fun a b => chLe a b = true) :=
        List.sorted_mergeSort chLe_trans chLe_total (keysOf cs)
      have hnd : ((keysOf cs).mergeSort chLe).Nodup :=
        (List.mergeSort_perm (keysOf cs) chLe).nodup_iff.mpr hwf.nodup
      refine (hsorted.and hnd).imp ?_
      intro k1 k2 hk x hx y hy
      have hlt : k1 < k2 := lt_of_le_of_ne (of_decide_eq_true hk.1) hk.2
      have hx1 : ∃ p', x.1 = k1 :: p' := by
        cases hlk : lookupChild k1 cs with
        | none =>
          rw [hlk] at hx
          exact absurd hx (by simp)
        | some t' =>
          rw [hlk] at hx
          rcases List.mem_map.mp hx with ⟨e, _, heq⟩
          exact ⟨e.1, by rw [← heq]⟩
      have hy1 : ∃ p', y.1 = k2 :: p' := by
        cases hlk : lookupChild k2 cs with
        | none =>
          rw [hlk] at hy
          exact absurd hy (by simp)
        | some t' =>
          rw [hlk] at hy
          rcases List.mem_map.mp hy with ⟨e, _, heq⟩
          exact ⟨e.1, by rw [← heq]⟩
      rcases hx1 with ⟨px, hpx⟩
      rcases hy1 with ⟨py, hpy⟩
      rw [hpx, hpy]
      exact List.Lex.rel hlt
  · intro a ha b hb
    have ha1 : a.1 = [] := by
      cases c0 with
      | none => exact absurd ha (by simp)
      | some x =>
        simp only [List.mem_singleton] at ha
        rw [ha]
    rcases List.mem_flatMap.mp hb with ⟨k, _, hbr⟩
    have hb1 : ∃ p', b.1 = k :: p' := by
      cases hlk : lookupChild k cs with
      | none =>
        rw [hlk] at hbr
        exact absurd hbr (by simp)
      | some t' =>
        rw [hlk] at hbr
        rcases List.mem_map.mp hbr with ⟨e, _, heq⟩
        exact ⟨e.1, by rw [← heq]⟩
    rcases hb1 with ⟨pb, hpb⟩
    rw [ha1, hpb]
    exact List.Lex.nil

/-- Two strictly sorted lists with the same members are equal. -/
theorem sortedStrictUnique {α : Type} {r : α → α → Prop}
    (hasym : ∀ a b, r a b → r b a → False) :
    ∀ (l1 l2 : List α), l1.Pairwise r → l2.Pairwise r →
      (∀ x, x ∈ l1 ↔ x ∈ l2) → l1 = l2 := by
  intro l1
  induction l1 with
  | nil =>
    intro l2 _ _ hmem
    cases l2 with
    | nil => rfl
    | cons b t2 => exact absurd ((hmem b).mpr (by simp)) (by simp)
  | cons a t1 ih =>
    intro l2 h1 h2 hmem
    cases l2 with
    | nil => exact absurd ((hmem a).mp (by simp)) (by simp)
    | cons b t2 =>
      rw [List.pairwise_cons] at h1 h2
      have hab : a = b := by
        rcases List.mem_cons.mp ((hmem a).mp (List.mem_cons_self a t1)) with h | h
        · exact h
        · rcases List.mem_cons.mp ((hmem b).mpr (List.mem_cons_self b t2)) with h' | h'
          · exact h'.symm
          · exact absurd (h1.1 b h') (fun hc => hasym _ _ hc (h2.1 a h))
      subst hab
      have htail : ∀ x, x ∈ t1 ↔ x ∈ t2 := by
        intro x
        constructor
        · intro hx
          have hr := h1.1 x hx
          rcases List.mem_cons.mp ((hmem x).mp (List.mem_cons_of_mem a hx)) with h | h
          · subst h
            exact absurd hr (fun hc => hasym _ _ hc hc)
          · exact h
        · intro hx
          have hr := h2.1 x hx
          rcases List.mem_cons.mp ((hmem x).mpr (List.mem_cons_of_mem a hx)) with h | h
          · subst h
            exact absurd hr (fun hc => hasym _ _ hc hc)
          · exact h
      rw [ih t2 h1.2 h2.2 htail]

/-- A record is in the sorted listing exactly when some path reaches it. -/
theorem mem_collect {t : TrieNode} {c : Contact} :
    c ∈ collect t ↔ ∃ p, searchPath t p = some c := by
  rw [collect_eq_entries]
  constructor
  · intro h
    rcases List.mem_map.mp h with ⟨⟨p, c'⟩, hm, heq⟩
    refine ⟨p, ?_⟩
    rw [← heq]
    exact (entries_mem t p c').mp hm
  · intro ⟨p, hp⟩
    exact List.mem_map.mpr ⟨(p, c), (entries_mem t p c).mpr hp, rfl⟩

/-- Under the path invariant, membership in the listing is lookup at the
record's own folded name. -/
theorem mem_collect_inv {t : TrieNode} (hinv : PathInv t) {c : Contact} :
    c ∈ collect t ↔ searchPath t (foldStr c.name) = some c := by
  rw [mem_collect]
  constructor
  · intro ⟨p, hp⟩
    rw [hinv p c hp]
    exact hp
  · intro h
    exact ⟨_, h⟩

/-- The sorted listing is strictly increasing in case-folded names. -/
theorem collect_sorted {t : TrieNode} (hwf : WFt t) (hinv : PathInv t) :
    (collect t).Pairwise
      (fun a b => List.Lex (· < ·) (foldStr a.name) (foldStr b.name)) := by
  rw [collect_eq_entries]
  rw [List.pairwise_map]
  refine List.Pairwise.imp_of_mem ?_ (entries_sorted t hwf)
  intro a b ha hb hr
  have hfa : foldStr a.2.name = a.1 :=
    hinv a.1 a.2 ((entries_mem t a.1 a.2).mp ha)
  have hfb : foldStr b.2.name = b.1 :=
    hinv b.1 b.2 ((entries_mem t b.1 b.2).mp hb)
  rw [hfa, hfb]
  exact hr

/-- `searchPath` factors through the prefix walk. -/
theorem searchPath_append :
    ∀ (r p : List Char) (t : TrieNode),
      searchPath t (r ++ p) =
        match walkPath t r with
        | some n => searchPath n p
        | none => none := by
  intro r
  induction r with
  | nil =>
    intro p t
    cases t with
    | node c0 cs => rfl
  | cons k r' ih =>
    intro p t
    cases t with
    | node c0 cs =>
      cases hlk : lookupChild k cs with
      | some ch =>
        rw [List.cons_append, searchPath_cons_some hlk]
        rw [ih p ch]
        have : walkPath (.node c0 cs) (k :: r') = walkPath ch r' := by
          simp [walkPath, hlk]
        rw [this]
      | none =>
        rw [List.cons_append, searchPath_cons_none hlk]
        have : walkPath (.node c0 cs) (k :: r') = none := by
          simp [walkPath, hlk]
        rw [this]

/-- The prefix walk lands on a well-formed subtree. -/
theorem WFt_walkPath :
    ∀ (r : List Char) (t n : TrieNode), WFt t → walkPath t r = some n →
      WFt n := by
  intro r
  induction r with
  | nil =>
    intro t n hwf h
    cases t with
    | node c0 cs =>
      rw [show walkPath (.node c0 cs) [] = some (.node c0 cs) from rfl,
        Option.some_inj] at h
      rw [← h]
      exact hwf
  | cons k r' ih =>
    intro t n hwf h
    cases t with
    | node c0 cs =>
      cases hlk : lookupChild k cs with
      | some ch =>
        have : walkPath (.node c0 cs) (k :: r') = walkPath ch r' := by
          simp [walkPath, hlk]
        rw [this] at h
        exact ih ch n (hwf.child (lookupChild_mem k cs ch hlk)) h
      | none =>
        have : walkPath (.node c0 cs) (k :: r') = none := by
          simp [walkPath, hlk]
        rw [this] at h
        exact absurd h (by simp)

/-- `ContactTrie.search_prefix` returns exactly the stored records whose
case-folded name extends the case-folded prefix, in sorted order (it is the
filter of the sorted listing). -/
theorem searchPre_eq_filter (t : TrieNode) (hwf : WFt t) (hinv : PathInv t)
    (pre : String) :
    searchPre t pre =
      (collect t).filter (fun c => (foldStr pre).isPrefixOf (foldStr c.name)) := by
  have hasym : ∀ a b : Contact,
      List.Lex (· < ·) (foldStr a.name) (foldStr b.name) →
      List.Lex (· < ·) (foldStr b.name) (foldStr a.name) → False :=
    fun a b h1 h2 => lexLt_asymm h1 h2
  unfold searchPre
  cases hwalk : walkPath t (foldStr pre) with
  | none =>
    have hfil : ∀ c ∈ collect t,
        ¬((foldStr pre).isPrefixOf (foldStr c.name) = true) := by
      intro c hc hpref
      rw [List.isPrefixOf_iff_prefix] at hpref
      rcases hpref with ⟨suf, hsuf⟩
      have hs := (mem_collect_inv hinv).mp hc
      rw [← hsuf, searchPath_append, hwalk] at hs
      exact absurd hs (by simp)
    rw [List.filter_eq_nil_iff.mpr (by intro c hc; simpa using hfil c hc)]
  | some n =>
    dsimp only []
    refine sortedStrictUnique hasym _ _ ?_ ?_ ?_
    · -- the subtree listing is strictly sorted by full folded name
      rw [collect_eq_entries, List.pairwise_map]
      refine List.Pairwise.imp_of_mem ?_ (entries_sorted n (WFt_walkPath _ t n hwf hwalk))
      intro a b ha hb hr
      have hfa : foldStr a.2.name = foldStr pre ++ a.1 := by
        have := (entries_mem n a.1 a.2).mp ha
        have hs : searchPath t (foldStr pre ++ a.1) = some a.2 := by
          rw [searchPath_append, hwalk]
          exact this
        exact hinv _ _ hs
      have hfb : foldStr b.2.name = foldStr pre ++ b.1 := by
        have := (entries_mem n b.1 b.2).mp hb
        have hs : searchPath t (foldStr pre ++ b.1) = some b.2 := by
          rw [searchPath_append, hwalk]
          exact this
        exact hinv _ _ hs
      rw [hfa, hfb]
      exact List.Lex.append_left _ hr _
    · exact (collect_sorted hwf hinv).sublist (List.filter_sublist _)
    · intro c
      rw [List.mem_filter]
      constructor
      · intro hc
        rcases mem_collect.mp hc with ⟨p, hp⟩
        have hs : searchPath t (foldStr pre ++ p) = some c := by
          rw [searchPath_append, hwalk]
          exact hp
        have hname : foldStr c.name = foldStr pre ++ p := hinv _ _ hs
        constructor
        · exact (mem_collect_inv hinv).mpr (by rw [hname]; exact hs)
        · rw [List.isPrefixOf_iff_prefix, hname]
          exact List.prefix_append _ _
      · intro ⟨hc, hpref⟩
        rw [List.isPrefixOf_iff_prefix] at hpref
        rcases hpref with ⟨suf, hsuf⟩
        have hs := (mem_collect_inv hinv).mp hc
        rw [← hsuf, searchPath_append, hwalk] at hs
        exact mem_collect.mpr ⟨suf, hs⟩

/-! ### The tuple comparisons of the two queues -/

/-- Unfolding `remLt` to propositions. -/
theorem remLt_iff (a b : RemEntry) :
    remLt a b = true ↔ (a.1 < b.1 ∨ (a.1 = b.1 ∧ a.2 < b.2)) := by
  simp [remLt]

/-- Python's tuple `<` on reminder entries is asymmetric. -/
theorem remLt_asymm : LtbAsymm remLt := by
  intro a b h
  rw [remLt_iff] at h
  rw [Bool.eq_false_iff]
  intro hc
  rw [remLt_iff] at hc
  rcases h with h | h <;> rcases hc with hc | hc
  · exact absurd hc (not_lt_of_lt h)
  · exact absurd h (by rw [hc.1]; exact lt_irrefl _)
  · exact absurd hc (by rw [h.1]; exact lt_irrefl _)
  · exact absurd hc.2 (not_lt_of_lt h.2)

/-- The associated `≤` on reminder entries is transitive. -/
theorem remLt_trans : LtbTrans remLt := by
  intro a b c hba hcb
  rw [Bool.eq_false_iff] at hba hcb
  rw [Bool.eq_false_iff]
  intro hca
  rw [remLt_iff] at hca
  have hba' : ¬(b.1 < a.1 ∨ (b.1 = a.1 ∧ b.2 < a.2)) := fun hh => hba ((remLt_iff b a).mpr hh)
  have hcb' : ¬(c.1 < b.1 ∨ (c.1 = b.1 ∧ c.2 < b.2)) := fun hh => hcb ((remLt_iff c b).mpr hh)
  push_neg at hba' hcb'
  have h1 : a.1 ≤ b.1 := hba'.1
  have h2 : b.1 ≤ c.1 := hcb'.1
  rcases hca with h | h
  · exact absurd h (not_lt_of_le (le_trans h1 h2))
  · have hab : b.1 = a.1 := le_antisymm (h.1 ▸ h2) h1
    have hcb1 : c.1 = b.1 := by
      rw [h.1]
      exact hab.symm
    have h3 : a.2 ≤ b.2 := hba'.2 hab
    have h4 : b.2 ≤ c.2 := hcb'.2 hcb1
    exact absurd h.2 (not_lt_of_le (le_trans h3 h4))

/-- Mutually incomparable reminder entries are equal. -/
theorem remLt_conn : LtbConn remLt := by
  intro a b hab hba
  rw [Bool.eq_false_iff] at hab hba
  have hab' : ¬(a.1 < b.1 ∨ (a.1 = b.1 ∧ a.2 < b.2)) := fun hh => hab ((remLt_iff a b).mpr hh)
  have hba' : ¬(b.1 < a.1 ∨ (b.1 = a.1 ∧ b.2 < a.2)) := fun hh => hba ((remLt_iff b a).mpr hh)
  push_neg at hab' hba'
  have h1 : a.1 = b.1 := le_antisymm hba'.1 hab'.1
  have h2 : a.2 = b.2 := le_antisymm (hba'.2 h1.symm) (hab'.2 h1)
  exact Prod.ext h1 h2

/-- Unfolding `projLt` to propositions. -/
theorem projLt_iff (a b : ProjEntry) :
    projLt a b = true ↔
      (a.1 < b.1 ∨ (a.1 = b.1 ∧ (a.2.1 < b.2.1 ∨ (a.2.1 = b.2.1 ∧ a.2.2 < b.2.2)))) := by
  simp [projLt]

/-- Python's tuple `<` on project entries is asymmetric. -/
theorem projLt_asymm : LtbAsymm projLt := by
  intro a b h
  rw [projLt_iff] at h
  rw [Bool.eq_false_iff]
  intro hc
  rw [projLt_iff] at hc
  rcases h with h | ⟨he, h⟩ <;> rcases hc with hc | ⟨hce, hc⟩
  · exact absurd hc (not_lt_of_lt h)
  · exact absurd h (by rw [hce]; exact lt_irrefl _)
  · exact absurd hc (by rw [he]; exact lt_irrefl _)
  · rcases h with h | ⟨he2, h⟩ <;> rcases hc with hc | ⟨hce2, hc⟩
    · exact absurd hc (not_lt_of_lt h)
    · exact absurd h (by rw [hce2]; exact lt_irrefl _)
    · exact absurd hc (by rw [he2]; exact lt_irrefl _)
    · exact absurd hc (not_lt_of_lt h)

/-- The associated `≤` on project entries is transitive. -/
theorem projLt_trans : LtbTrans projLt := by
  intro a b c hba hcb
  rw [Bool.eq_false_iff] at hba hcb
  rw [Bool.eq_false_iff]
  intro hca
  have hba' : ¬(b.1 < a.1 ∨ (b.1 = a.1 ∧ (b.2.1 < a.2.1 ∨ (b.2.1 = a.2.1 ∧ b.2.2 < a.2.2)))) :=
    fun hh => hba ((projLt_iff b a).mpr hh)
  have hcb' : ¬(c.1 < b.1 ∨ (c.1 = b.1 ∧ (c.2.1 < b.2.1 ∨ (c.2.1 = b.2.1 ∧ c.2.2 < b.2.2)))) :=
    fun hh => hcb ((projLt_iff c b).mpr hh)
  rw [projLt_iff] at hca
  push_neg at hba' hcb'
  have h1 : a.1 ≤ b.1 := hba'.1
  have h2 : b.1 ≤ c.1 := hcb'.1
  rcases hca with h | ⟨he, hca⟩
  · exact absurd h (not_lt_of_le (le_trans h1 h2))
  · have hab : b.1 = a.1 := le_antisymm (he ▸ h2) h1
    have hcb1 : c.1 = b.1 := by
      rw [he]
      exact hab.symm
    have h3 : a.2.1 ≤ b.2.1 := (hba'.2 hab).1
    have h4 : b.2.1 ≤ c.2.1 := (hcb'.2 hcb1).1
    rcases hca with h | ⟨he2, hca⟩
    · exact absurd h (not_lt_of_le (le_trans h3 h4))
    · have hab2 : b.2.1 = a.2.1 := le_antisymm (he2 ▸ h4) h3
      have hcb2 : c.2.1 = b.2.1 := by
        rw [he2]
        exact hab2.symm
      have h5 : a.2.2 ≤ b.2.2 := (hba'.2 hab).2 hab2
      have h6 : b.2.2 ≤ c.2.2 := (hcb'.2 hcb1).2 hcb2
      exact absurd hca (not_lt_of_le (le_trans h5 h6))

/-- Mutually incomparable project entries are equal. -/
theorem projLt_conn : LtbConn projLt := by
  intro a b hab hba
  rw [Bool.eq_false_iff] at hab hba
  have hab' : ¬(a.1 < b.1 ∨ (a.1 = b.1 ∧ (a.2.1 < b.2.1 ∨ (a.2.1 = b.2.1 ∧ a.2.2 < b.2.2)))) :=
    fun hh => hab ((projLt_iff a b).mpr hh)
  have hba' : ¬(b.1 < a.1 ∨ (b.1 = a.1 ∧ (b.2.1 < a.2.1 ∨ (b.2.1 = a.2.1 ∧ b.2.2 < a.2.2)))) :=
    fun hh => hba ((projLt_iff b a).mpr hh)
  push_neg at hab' hba'
  have h1 : a.1 = b.1 := le_antisymm hba'.1 hab'.1
  have h2 : a.2.1 = b.2.1 := le_antisymm (hba'.2 h1.symm).1 (hab'.2 h1).1
  have h3 : a.2.2 = b.2.2 :=
    le_antisymm ((hba'.2 h1.symm).2 h2.symm) ((hab'.2 h1).2 h2)
  exact Prod.ext h1 (Prod.ext h2 h3)

/-! ### The manager invariant -/

/-- Invariants carried by every reachable manager state: the trie is
well-formed dict-wise, every stored record sits at its own folded name, and
both queue lists satisfy the `heapq` invariant. -/
def StateOK (m : DataManager) : Prop :=
  WFt m.contacts ∧ PathInv m.contacts ∧
    IsHeapB remLt m.reminders ∧ IsHeapB projLt m.projects

/-- The startup manager satisfies the invariant. -/
theorem stateOK_init : StateOK initManager := by
  refine ⟨wf_empty.1, wf_empty.2, ?_, ?_⟩
  · intro d j hj hlen
    simp [initManager] at hlen
  · intro d j hj hlen
    simp [initManager] at hlen

/-- One POST dispatch preserves the invariant. -/
theorem stateOK_postStep (m : DataManager) (req : Request) (h : StateOK m) :
    StateOK (postStep m req).1 := by
  unfold postStep
  split
  · split
    · exact ⟨WFt_insertC h.1 _ _ _, PathInv_insertC h.2.1 _ _ _,
        h.2.2.1, h.2.2.2⟩
    · exact h
  split
  · split
    · exact ⟨WFt_deleteC h.1 _, PathInv_deleteC h.1 h.2.1 _,
        h.2.2.1, h.2.2.2⟩
    · exact h
  split
  · split
    · exact ⟨h.1, h.2.1,
        heappush_heapOK remLt_asymm remLt_trans _ h.2.2.1, h.2.2.2⟩
    · exact h
  split
  · split
    · exact ⟨h.1, h.2.1,
        heapify_heapOK remLt_asymm remLt_trans _, h.2.2.2⟩
    · exact h
  split
  · split
    · exact ⟨h.1, h.2.1, h.2.2.1,
        heappush_heapOK projLt_asymm projLt_trans _ h.2.2.2⟩
    · exact h
  split
  · split
    · exact ⟨h.1, h.2.1, h.2.2.1,
        heapify_heapOK projLt_asymm projLt_trans _⟩
    · exact h
  exact h

/-- Every state reached from the startup manager satisfies the invariant. -/
theorem stateOK_applyReqs :
    ∀ (reqs : List Request) (m : DataManager), StateOK m →
      StateOK (applyReqs m reqs) := by
  intro reqs
  induction reqs with
  | nil => intro m h; exact h
  | cons r rs ih =>
    intro m h
    exact ih _ (stateOK_postStep m r h)

/-- The invariant at any reachable state. -/
theorem stateOK_reachable (reqs : List Request) :
    StateOK (applyReqs initManager reqs) :=
  stateOK_applyReqs reqs initManager stateOK_init

/-! ### Derived container-level facts -/

/-- The walk over an empty prefix stays at the root. -/
theorem walkPath_nil (t : TrieNode) : walkPath t [] = some t := by
  cases t with
  | node c cs => rfl

/-- `search_prefix("")` is the full sorted listing. -/
theorem searchPre_empty (t : TrieNode) : searchPre t "" = getAllSorted t := by
  unfold searchPre getAllSorted
  rw [show foldStr "" = ([] : List Char) from rfl, walkPath_nil]

/-- `search` after `insert`, at the level of names. -/
theorem searchC_insertC (t : TrieNode) (name phone email m : String) :
    searchC (insertC t name phone email) m =
      if foldStr m = foldStr name then some ⟨name, phone, email⟩
      else searchC t m := by
  unfold searchC insertC
  rw [searchPath_insertPath]

/-- `search` after `delete`, at the level of names. -/
theorem searchC_deleteC (t : TrieNode) (hwf : WFt t) (name m : String) :
    searchC (deleteC t name) m =
      if foldStr m = foldStr name then none else searchC t m := by
  unfold searchC deleteC
  rw [(deleteAux_spec (foldStr name) t hwf).2 (foldStr m)]

/-- `delete` of an absent name leaves the trie untouched. -/
theorem deleteC_noop (t : TrieNode) (hwf : WFt t) (name : String)
    (habs : searchC t name = none) : deleteC t name = t := by
  unfold deleteC
  rw [deleteAux_noop (foldStr name) t hwf habs]

/-- `delete` filters the sorted listing by folded name. -/
theorem collect_deleteC (t : TrieNode) (hwf : WFt t) (hinv : PathInv t)
    (name : String) :
    getAllSorted (deleteC t name) =
      (getAllSorted t).filter (fun c => !(foldStr c.name == foldStr name)) := by
  unfold getAllSorted
  have hwf' : WFt (deleteC t name) := WFt_deleteC hwf name
  have hinv' : PathInv (deleteC t name) := PathInv_deleteC hwf hinv name
  have hasym : ∀ a b : Contact,
      List.Lex (· < ·) (foldStr a.name) (foldStr b.name) →
      List.Lex (· < ·) (foldStr b.name) (foldStr a.name) → False :=
    fun a b h1 h2 => lexLt_asymm h1 h2
  refine sortedStrictUnique hasym _ _
    (collect_sorted hwf' hinv')
    ((collect_sorted hwf hinv).sublist (List.filter_sublist _)) ?_
  intro c
  rw [List.mem_filter]
  rw [mem_collect_inv hinv', mem_collect_inv hinv]
  unfold deleteC
  rw [(deleteAux_spec (foldStr name) t hwf).2 (foldStr c.name)]
  by_cases hp : foldStr c.name = foldStr name
  · rw [if_pos hp]
    constructor
    · intro hh
      exact absurd hh (by simp)
    · intro ⟨_, hh⟩
      rw [hp] at hh
      simp at hh
  · rw [if_neg hp]
    constructor
    · intro hh
      refine ⟨hh, ?_⟩
      simp [hp]
    · intro ⟨hh, _⟩
      exact hh

/-- A list that is strictly sorted by a key holds at most one element with
any given key value. -/
theorem countP_le_one_of_pairwise {α : Type} {r : α → α → Prop}
    {p : α → Bool}
    (hp : ∀ a b, p a = true → p b = true → r a b → False) :
    ∀ l : List α, l.Pairwise r → l.countP p ≤ 1 := by
  intro l
  induction l with
  | nil =>
    intro _
    simp
  | cons a t ih =>
    intro hpw
    rw [List.pairwise_cons] at hpw
    by_cases hpa : p a = true
    · rw [List.countP_cons_of_pos _ _ hpa]
      have hzero : t.countP p = 0 := by
        rw [List.countP_eq_zero]
        intro b hb hpb
        exact hp a b hpa hpb (hpw.1 b hb)
      omega
    · rw [List.countP_cons_of_neg _ _ (by simpa using hpa)]
      exact ih hpw.2

/-- Any reachable trie stores at most one contact per case-folded name. -/
theorem collect_count_le_one (t : TrieNode) (hwf : WFt t) (hinv : PathInv t)
    (key : List Char) :
    (getAllSorted t).countP (fun c => foldStr c.name == key) ≤ 1 := by
  refine countP_le_one_of_pairwise ?_ _ (collect_sorted hwf hinv)
  intro a b ha hb hr
  rw [beq_iff_eq] at ha hb
  rw [ha, hb] at hr
  exact lexLt_asymm hr hr

/-- `get_all` permutes the reminder heap. -/
theorem remGetAll_perm (h : List RemEntry) : List.Perm (remGetAll h) h :=
  List.mergeSort_perm h _

/-- `get_all` permutes the project heap. -/
theorem projGetAll_perm (h : List ProjEntry) : List.Perm (projGetAll h) h :=
  List.mergeSort_perm h _

/-- `get_all` sorts reminders by timestamp. -/
theorem remGetAll_sorted (h : List RemEntry) :
    (remGetAll h).Pairwise (fun a b => a.1 ≤ b.1) := by
  refine (List.sorted_mergeSort ?_ ?_ h).imp ?_
  · intro a b c h1 h2
    rw [decide_eq_true_eq] at h1 h2 ⊢
    exact le_trans h1 h2
  · intro a b
    rcases le_total a.1 b.1 with hle | hle
    · rw [decide_eq_true hle]
      rfl
    · rw [decide_eq_true hle]
      simp
  · intro a b hab
    exact of_decide_eq_true hab

/-- `get_all` sorts projects by start date. -/
theorem projGetAll_sorted (h : List ProjEntry) :
    (projGetAll h).Pairwise (fun a b => a.1 ≤ b.1) := by
  refine (List.sorted_mergeSort ?_ ?_ h).imp ?_
  · intro a b c h1 h2
    rw [decide_eq_true_eq] at h1 h2 ⊢
    exact le_trans h1 h2
  · intro a b
    rcases le_total a.1 b.1 with hle | hle
    · rw [decide_eq_true hle]
      rfl
    · rw [decide_eq_true hle]
      simp
  · intro a b hab
    exact of_decide_eq_true hab

/-- `ReminderQueue.remove` of an absent pair leaves the heap list untouched. -/
theorem remRemove_noop (h : List RemEntry) (hheap : IsHeapB remLt h)
    (text : String) (ts : Int) (habs : (ts, text) ∉ h) :
    remRemove h text ts = h := by
  unfold remRemove
  have hfil : h.filter (fun e => !(e.1 == ts && e.2 == text)) = h := by
    rw [List.filter_eq_self]
    intro e he
    rw [Bool.not_eq_eq_eq_not, Bool.not_true, Bool.and_eq_false_iff]
    by_cases h1 : e.1 = ts
    · right
      rw [beq_eq_false_iff_ne]
      intro h2
      apply habs
      rw [← h1, ← h2]
      exact he
    · left
      rw [beq_eq_false_iff_ne]
      exact h1
  rw [hfil]
  exact heapify_id remLt_asymm remLt_trans remLt_conn hheap

/-- `ProjectQueue.remove` of an absent identity leaves the heap list
untouched. -/
theorem projRemove_noop (h : List ProjEntry) (hheap : IsHeapB projLt h)
    (name start_date : String)
    (habs : ∀ e ∈ h, ¬(e.2.1 = name ∧ e.1 = start_date)) :
    projRemove h name start_date = h := by
  unfold projRemove
  have hfil : h.filter (fun e => !(e.2.1 == name && e.1 == start_date)) = h := by
    rw [List.filter_eq_self]
    intro e he
    rw [Bool.not_eq_eq_eq_not, Bool.not_true, Bool.and_eq_false_iff]
    by_cases h1 : e.2.1 = name
    · right
      rw [beq_eq_false_iff_ne]
      intro h2
      exact habs e he ⟨h1, h2⟩
    · left
      rw [beq_eq_false_iff_ne]
      exact h1
  rw [hfil]
  exact heapify_id projLt_asymm projLt_trans projLt_conn hheap

/-- Serializing a reminder entry (`{'text': t, 'time': ts}`) is injective. -/
theorem remOut_injective :
    Function.Injective (fun e : RemEntry => RemOut.mk e.2 e.1) := by
  intro a b hab
  simp only [RemOut.mk.injEq] at hab
  exact Prod.ext hab.2 hab.1

/-- Counting a reminder in the serialized state counts the matching pairs in
the heap list. -/
theorem count_get_data_reminders (m : DataManager) (text : String) (ts : Int) :
    ((get_data m).reminders.count ⟨text, ts⟩) = m.reminders.count (ts, text) := by
  show List.countP (· == RemOut.mk text ts)
      ((remGetAll m.reminders).map (fun e => RemOut.mk e.2 e.1))
    = List.countP (· == (ts, text)) m.reminders
  rw [List.countP_map, (remGetAll_perm m.reminders).countP_eq]
  refine List.countP_congr ?_
  intro e _
  show (RemOut.mk e.2 e.1 == RemOut.mk text ts) = true ↔ (e == (ts, text)) = true
  by_cases hx : e = (ts, text)
  · subst hx
    rw [beq_self_eq_true, beq_self_eq_true]
  · have h1 : (e == (ts, text)) = false := beq_eq_false_iff_ne.mpr hx
    have h2 : (RemOut.mk e.2 e.1 == RemOut.mk text ts) = false := by
      rw [beq_eq_false_iff_ne]
      intro hc
      exact hx (remOut_injective hc)
    rw [h1, h2]

/-! ### The six client request shapes and their dispatch -/

/-- The body the client sends for `add_contact`. -/
def addContactReq (name phone email : String) : Request :=
  { action := some "add_contact", name := some name, phone := some phone,
    email := some email }

/-- The body the client sends for `delete_contact`. -/
def deleteContactReq (name : String) : Request :=
  { action := some "delete_contact", name := some name }

/-- The body the client sends for `add_reminder`. -/
def addReminderReq (text : String) (ts : Int) : Request :=
  { action := some "add_reminder", text := some text, timestamp := some ts }

/-- The body the client sends for `delete_reminder`. -/
def deleteReminderReq (text : String) (ts : Int) : Request :=
  { action := some "delete_reminder", text := some text, timestamp := some ts }

/-- The body the client sends for `add_project`. -/
def addProjectReq (name start_date end_date : String) : Request :=
  { action := some "add_project", name := some name, start := some start_date,
    endDate := some end_date }

/-- The body the client sends for `delete_project`. -/
def deleteProjectReq (name start_date : String) : Request :=
  { action := some "delete_project", name := some name,
    start := some start_date }

/-- Dispatching a full `add_contact` body inserts and answers the new state. -/
theorem postStep_addContact (m : DataManager) (name phone email : String) :
    postStep m (addContactReq name phone email) =
      ({ m with contacts := insertC m.contacts name phone email },
       .ok (get_data { m with contacts := insertC m.contacts name phone email })) :=
  rfl

/-- Dispatching a full `delete_contact` body deletes and answers the new
state. -/
theorem postStep_deleteContact (m : DataManager) (name : String) :
    postStep m (deleteContactReq name) =
      ({ m with contacts := deleteC m.contacts name },
       .ok (get_data { m with contacts := deleteC m.contacts name })) :=
  rfl

/-- Dispatching a full `add_reminder` body pushes and answers the new state. -/
theorem postStep_addReminder (m : DataManager) (text : String) (ts : Int) :
    postStep m (addReminderReq text ts) =
      ({ m with reminders := remAdd m.reminders text ts },
       .ok (get_data { m with reminders := remAdd m.reminders text ts })) :=
  rfl

/-- Dispatching a full `delete_reminder` body removes and answers the new
state. -/
theorem postStep_deleteReminder (m : DataManager) (text : String) (ts : Int) :
    postStep m (deleteReminderReq text ts) =
      ({ m with reminders := remRemove m.reminders text ts },
       .ok (get_data { m with reminders := remRemove m.reminders text ts })) :=
  rfl

/-- Dispatching a full `add_project` body pushes and answers the new state. -/
theorem postStep_addProject (m : DataManager) (name start_date end_date : String) :
    postStep m (addProjectReq name start_date end_date) =
      ({ m with projects := projAdd m.projects name start_date end_date },
       .ok (get_data { m with projects := projAdd m.projects name start_date end_date })) :=
  rfl

/-- Dispatching a full `delete_project` body removes and answers the new
state. -/
theorem postStep_deleteProject (m : DataManager) (name start_date : String) :
    postStep m (deleteProjectReq name start_date) =
      ({ m with projects := projRemove m.projects name start_date },
       .ok (get_data { m with projects := projRemove m.projects name start_date })) :=
  rfl

/-- `data.get('action')` names one of the six handled operations. -/
def recognizedTag (req : Request) : Bool :=
  req.action == some "add_contact" || req.action == some "delete_contact" ||
  req.action == some "add_reminder" || req.action == some "delete_reminder" ||
  req.action == some "add_project" || req.action == some "delete_project"

/-- The request names a handled operation but omits a field that operation
subscripts with `data[...]`. -/
def requiredMissing (req : Request) : Bool :=
  (req.action == some "add_contact" &&
    (req.name.isNone || req.phone.isNone || req.email.isNone)) ||
  (req.action == some "delete_contact" && req.name.isNone) ||
  (req.action == some "add_reminder" &&
    (req.text.isNone || req.timestamp.isNone)) ||
  (req.action == some "delete_reminder" &&
    (req.text.isNone || req.timestamp.isNone)) ||
  (req.action == some "add_project" &&
    (req.name.isNone || req.start.isNone || req.endDate.isNone)) ||
  (req.action == some "delete_project" &&
    (req.name.isNone || req.start.isNone))

/-! ### The frozen claims -/

/-- C7: a request carrying a recognized operation tag but lacking a required
field for that tag raises the uncaught `KeyError` fault instead of completing
silently, and no container is mutated: the dispatch returns the store exactly
as it was, paired with the fault. -/
theorem claim_C7 (m : DataManager) (req : Request)
    (h : requiredMissing req = true) :
    postStep m req = (m, Except.error "KeyError") := by
  unfold requiredMissing at h
  unfold postStep
  by_cases h1 : req.action = some "add_contact"
  · rw [if_pos (by rw [h1]; rfl)]
    cases hn : req.name with
    | none => rfl
    | some n =>
      cases hp : req.phone with
      | none => rfl
      | some p =>
        cases he : req.email with
        | none => rfl
        | some e =>
          rw [h1, hn, hp, he] at h
          simp at h
  rw [if_neg (fun hc => h1 (eq_of_beq hc))]
  by_cases h2 : req.action = some "delete_contact"
  · rw [if_pos (by rw [h2]; rfl)]
    cases hn : req.name with
    | none => rfl
    | some n =>
      rw [h2, hn] at h
      simp at h
  rw [if_neg (fun hc => h2 (eq_of_beq hc))]
  by_cases h3 : req.action = some "add_reminder"
  · rw [if_pos (by rw [h3]; rfl)]
    cases hn : req.text with
    | none => rfl
    | some t =>
      cases hp : req.timestamp with
      | none => rfl
      | some ts =>
        rw [h3, hn, hp] at h
        simp at h
  rw [if_neg (fun hc => h3 (eq_of_beq hc))]
  by_cases h4 : req.action = some "delete_reminder"
  · rw [if_pos (by rw [h4]; rfl)]
    cases hn : req.text with
    | none => rfl
    | some t =>
      cases hp : req.timestamp with
      | none => rfl
      | some ts =>
        rw [h4, hn, hp] at h
        simp at h
  rw [if_neg (fun hc => h4 (eq_of_beq hc))]
  by_cases h5 : req.action = some "add_project"
  · rw [if_pos (by rw [h5]; rfl)]
    cases hn : req.name with
    | none => rfl
    | some n =>
      cases hp : req.start with
      | none => rfl
      | some s =>
        cases he : req.endDate with
        | none => rfl
        | some e =>
          rw [h5, hn, hp, he] at h
          simp at h
  rw [if_neg (fun hc => h5 (eq_of_beq hc))]
  by_cases h6 : req.action = some "delete_project"
  · rw [if_pos (by rw [h6]; rfl)]
    cases hn : req.name with
    | none => rfl
    | some n =>
      cases hp : req.start with
      | none => rfl
      | some s =>
        rw [h6, hn, hp] at h
        simp at h
  rw [if_neg (fun hc => h6 (eq_of_beq hc))]
  rw [beq_eq_false_iff_ne.mpr h1, beq_eq_false_iff_ne.mpr h2,
    beq_eq_false_iff_ne.mpr h3, beq_eq_false_iff_ne.mpr h4,
    beq_eq_false_iff_ne.mpr h5, beq_eq_false_iff_ne.mpr h6] at h
  simp at h

/-- An `add_contact` body with every field left out faults without mutating
the startup store. -/
theorem claim_C7_witness :
    requiredMissing { action := some "add_contact" } = true ∧
    postStep initManager { action := some "add_contact" } =
      (initManager, Except.error "KeyError") :=
  ⟨by decide, claim_C7 initManager { action := some "add_contact" } (by decide)⟩

/-- C8: a mutation request whose operation tag is none of the six recognized
tags mutates no container and still answers the full serialized state, which
is that of the store before the request. -/
theorem claim_C8 (m : DataManager) (req : Request)
    (h : recognizedTag req = false) :
    postStep m req = (m, Except.ok (get_data m)) := by
  unfold recognizedTag at h
  simp only [Bool.or_eq_false_iff] at h
  obtain ⟨⟨⟨⟨⟨h1, h2⟩, h3⟩, h4⟩, h5⟩, h6⟩ := h
  unfold postStep
  rw [h1, h2, h3, h4, h5, h6]
  simp only [Bool.false_eq_true, if_false]

/-- A request with an unknown tag leaves the startup store untouched and
still answers its state. -/
theorem claim_C8_witness :
    recognizedTag { action := some "make_coffee" } = false ∧
    postStep initManager { action := some "make_coffee" } =
      (initManager, Except.ok (get_data initManager)) :=
  ⟨by decide, claim_C8 initManager { action := some "make_coffee" } (by decide)⟩

/-- Counting is invariant under permutation. -/
theorem count_of_perm {α : Type} [BEq α] {l1 l2 : List α}
    (h : List.Perm l1 l2) (a : α) : l1.count a = l2.count a :=
  h.countP_eq (· == a)

/-- C1: inserting a contact under `name` and then deleting under any
`nameDel` that case-folds to the same key removes it: the subsequent exact
lookup is empty and the serialized contact list no longer holds the record. -/
theorem claim_C1 (reqs : List Request) (name phone email nameDel : String)
    (hcase : foldStr nameDel = foldStr name) :
    let m0 := applyReqs initManager reqs
    let m1 := (postStep m0 (addContactReq name phone email)).1
    let m2 := (postStep m1 (deleteContactReq nameDel)).1
    searchC m2.contacts name = none ∧
      (⟨name, phone, email⟩ : Contact) ∉ (get_data m2).contacts := by
  intro m0 m1 m2
  obtain ⟨hwf0, hinv0, _, _⟩ := stateOK_reachable reqs
  have hm1 : m1.contacts = insertC m0.contacts name phone email := by
    show (postStep m0 (addContactReq name phone email)).1.contacts = _
    rw [postStep_addContact]
  have hm2 : m2.contacts = deleteC m1.contacts nameDel := by
    show (postStep m1 (deleteContactReq nameDel)).1.contacts = _
    rw [postStep_deleteContact]
  have hwf1 : WFt m1.contacts := by
    rw [hm1]
    exact WFt_insertC hwf0 _ _ _
  have hinv1 : PathInv m1.contacts := by
    rw [hm1]
    exact PathInv_insertC hinv0 _ _ _
  constructor
  · rw [hm2, searchC_deleteC _ hwf1 nameDel name, if_pos hcase.symm]
  · intro hmem
    rw [show (get_data m2).contacts = getAllSorted m2.contacts from rfl, hm2,
      collect_deleteC _ hwf1 hinv1 nameDel] at hmem
    have hpred := (List.mem_filter.mp hmem).2
    simp [hcase] at hpred

/-- The spec scenario: add Jo, delete JO, and Jo is gone. -/
theorem claim_C1_witness :
    foldStr "JO" = foldStr "Jo" ∧
    (let m0 := applyReqs initManager []
     let m1 := (postStep m0 (addContactReq "Jo" "555" "jo@x.com")).1
     let m2 := (postStep m1 (deleteContactReq "JO")).1
     searchC m2.contacts "Jo" = none ∧
       (⟨"Jo", "555", "jo@x.com"⟩ : Contact) ∉ (get_data m2).contacts) :=
  ⟨by decide, claim_C1 [] "Jo" "555" "jo@x.com" "JO" (by decide)⟩

/-- C2: after any sequence of POST operations against the startup store, the
serialized state is sorted: contacts strictly increasing in case-folded name
(hence non-decreasing), reminders non-decreasing in the `time` field, and
projects non-decreasing in the `start` field. -/
theorem claim_C2 (reqs : List Request) :
    ((get_data (applyReqs initManager reqs)).contacts.Pairwise
       (fun a b => List.Lex (· < ·) (foldStr a.name) (foldStr b.name))) ∧
    ((get_data (applyReqs initManager reqs)).reminders.Pairwise
       (fun a b => a.time ≤ b.time)) ∧
    ((get_data (applyReqs initManager reqs)).projects.Pairwise
       (fun a b => a.start ≤ b.start)) := by
  obtain ⟨hwf, hinv, _, _⟩ := stateOK_reachable reqs
  refine ⟨?_, ?_, ?_⟩
  · show (getAllSorted (applyReqs initManager reqs).contacts).Pairwise _
    exact collect_sorted hwf hinv
  · show (((remGetAll (applyReqs initManager reqs).reminders).map
      (fun e => RemOut.mk e.2 e.1)).Pairwise _)
    rw [List.pairwise_map]
    exact (remGetAll_sorted _).imp (fun hab => hab)
  · show (((projGetAll (applyReqs initManager reqs).projects).map
      (fun e => ProjOut.mk e.2.1 e.1 e.2.2)).Pairwise _)
    rw [List.pairwise_map]
    exact (projGetAll_sorted _).imp (fun hab => hab)

/-- C3: at every reachable store, `search_prefix` returns exactly the stored
contacts whose case-folded name starts with the case-folded prefix — the
filter of the sorted listing — in ascending case-folded-name order, and on
the empty prefix it coincides with `get_all_sorted`. -/
theorem claim_C3 (reqs : List Request) (pre : String) :
    searchPre (applyReqs initManager reqs).contacts pre =
      (getAllSorted (applyReqs initManager reqs).contacts).filter
        (fun c => (foldStr pre).isPrefixOf (foldStr c.name)) ∧
    (searchPre (applyReqs initManager reqs).contacts pre).Pairwise
      (fun a b => List.Lex (· < ·) (foldStr a.name) (foldStr b.name)) ∧
    searchPre (applyReqs initManager reqs).contacts "" =
      getAllSorted (applyReqs initManager reqs).contacts := by
  obtain ⟨hwf, hinv, _, _⟩ := stateOK_reachable reqs
  have hfil := searchPre_eq_filter _ hwf hinv pre
  refine ⟨?_, ?_, searchPre_empty _⟩
  · rw [hfil]
    rfl
  · rw [hfil]
    exact (collect_sorted hwf hinv).sublist (List.filter_sublist _)

/-- C4: every reachable store holds at most one contact per case-folded name;
re-inserting under a name with the same fold overwrites, so exactly one entry
with that fold remains and lookup yields the later record; `add_contact` with
all fields present never reports an error. -/
theorem claim_C4 (reqs : List Request) (key : List Char)
    (n1 p1 e1 n2 p2 e2 : String) (hfold : foldStr n2 = foldStr n1) :
    let t0 := (applyReqs initManager reqs).contacts
    let t2 := insertC (insertC t0 n1 p1 e1) n2 p2 e2
    (getAllSorted t0).countP (fun c => foldStr c.name == key) ≤ 1 ∧
    searchC t2 n1 = some ⟨n2, p2, e2⟩ ∧
    (getAllSorted t2).countP (fun c => foldStr c.name == foldStr n1) = 1 ∧
    (postStep (applyReqs initManager reqs) (addContactReq n1 p1 e1)).2 =
      Except.ok (get_data (postStep (applyReqs initManager reqs)
        (addContactReq n1 p1 e1)).1) := by
  intro t0 t2
  obtain ⟨hwf0, hinv0, _, _⟩ := stateOK_reachable reqs
  have hwf2 : WFt t2 := WFt_insertC (WFt_insertC hwf0 n1 p1 e1) n2 p2 e2
  have hinv2 : PathInv t2 := PathInv_insertC (PathInv_insertC hinv0 n1 p1 e1) n2 p2 e2
  have hsearch : searchC t2 n1 = some ⟨n2, p2, e2⟩ := by
    show searchC (insertC (insertC t0 n1 p1 e1) n2 p2 e2) n1 = _
    rw [searchC_insertC, if_pos hfold.symm]
  refine ⟨collect_count_le_one t0 hwf0 hinv0 key, hsearch, ?_, ?_⟩
  · have hle := collect_count_le_one t2 hwf2 hinv2 (foldStr n1)
    have hs2 : searchPath t2 (foldStr n2) = some ⟨n2, p2, e2⟩ := by
      have := searchC_insertC (insertC t0 n1 p1 e1) n2 p2 e2 n2
      rw [if_pos rfl] at this
      exact this
    have hmem : (⟨n2, p2, e2⟩ : Contact) ∈ getAllSorted t2 :=
      mem_collect.mpr ⟨foldStr n2, hs2⟩
    have hpos : 0 < (getAllSorted t2).countP
        (fun c => foldStr c.name == foldStr n1) :=
      List.countP_pos_iff.mpr ⟨⟨n2, p2, e2⟩, hmem, beq_iff_eq.mpr hfold⟩
    omega
  · rw [postStep_addContact]

/-- The spec scenario: Ann then ANN leaves exactly one entry, the latest. -/
theorem claim_C4_witness :
    foldStr "ANN" = foldStr "Ann" ∧
    (let t0 := (applyReqs initManager []).contacts
     let t2 := insertC (insertC t0 "Ann" "111" "a@x.com") "ANN" "222" "b@x.com"
     (getAllSorted t0).countP (fun c => foldStr c.name == ([] : List Char)) ≤ 1 ∧
     searchC t2 "Ann" = some ⟨"ANN", "222", "b@x.com"⟩ ∧
     (getAllSorted t2).countP (fun c => foldStr c.name == foldStr "Ann") = 1 ∧
     (postStep (applyReqs initManager []) (addContactReq "Ann" "111" "a@x.com")).2 =
       Except.ok (get_data (postStep (applyReqs initManager [])
         (addContactReq "Ann" "111" "a@x.com")).1)) :=
  ⟨by decide, claim_C4 [] [] "Ann" "111" "a@x.com" "ANN" "222" "b@x.com" (by decide)⟩

/-- C5: two `add_reminder` requests with the same `(text, timestamp)` pair
leave two matching entries in the serialized state; one `delete_reminder`
with that pair removes every matching entry and no other, and the deletion
answers the state rather than an error. -/
theorem claim_C5 (m : DataManager) (text : String) (ts : Int) (e : RemEntry) :
    let m2 := applyReqs m [addReminderReq text ts, addReminderReq text ts]
    let m3 := (postStep m2 (deleteReminderReq text ts)).1
    ((get_data m2).reminders.count ⟨text, ts⟩ =
       (get_data m).reminders.count ⟨text, ts⟩ + 2) ∧
    (get_data m3).reminders.count ⟨text, ts⟩ = 0 ∧
    m3.reminders.count e =
      (if e.1 = ts ∧ e.2 = text then 0 else m2.reminders.count e) ∧
    (postStep m2 (deleteReminderReq text ts)).2 =
      Except.ok (get_data (postStep m2 (deleteReminderReq text ts)).1) := by
  intro m2 m3
  have hc1 : ∀ hh : List RemEntry,
      (remAdd hh text ts).count ((ts, text) : RemEntry) =
        hh.count ((ts, text) : RemEntry) + 1 :=
    fun hh =>
      (count_of_perm (heappush_perm remLt hh ((ts, text) : RemEntry))
        ((ts, text) : RemEntry)).trans (List.count_cons_self _ _)
  have hm2r : m2.reminders = remAdd (remAdd m.reminders text ts) text ts := by
    show (postStep (postStep m (addReminderReq text ts)).1
        (addReminderReq text ts)).1.reminders = _
    rw [postStep_addReminder m text ts, postStep_addReminder]
  have hm3r : m3.reminders = remRemove m2.reminders text ts := by
    show (postStep m2 (deleteReminderReq text ts)).1.reminders = _
    rw [postStep_deleteReminder]
  have habs : ((ts, text) : RemEntry) ∉
      m2.reminders.filter (fun r => !(r.1 == ts && r.2 == text)) := by
    intro hmem
    have := (List.mem_filter.mp hmem).2
    simp at this
  have hdelcount :
      (remRemove m2.reminders text ts).count ((ts, text) : RemEntry) = 0 := by
    rw [show remRemove m2.reminders text ts =
      heapify remLt (m2.reminders.filter (fun r => !(r.1 == ts && r.2 == text)))
      from rfl]
    rw [count_of_perm (heapify_perm remLt _) _]
    exact List.count_eq_zero.mpr habs
  refine ⟨?_, ?_, ?_, ?_⟩
  · rw [count_get_data_reminders m2 text ts, count_get_data_reminders m text ts,
      hm2r, hc1, hc1]
  · rw [count_get_data_reminders m3 text ts, hm3r, hdelcount]
  · by_cases hx : e.1 = ts ∧ e.2 = text
    · rw [if_pos hx]
      have he : e = ((ts, text) : RemEntry) := Prod.ext hx.1 hx.2
      rw [hm3r, he, hdelcount]
    · rw [if_neg hx]
      rw [hm3r,
        show remRemove m2.reminders text ts =
          heapify remLt (m2.reminders.filter (fun r => !(r.1 == ts && r.2 == text)))
          from rfl,
        count_of_perm (heapify_perm remLt _) _]
      refine List.count_filter ?_
      rw [not_and_or] at hx
      simpa using hx
  · rw [postStep_deleteReminder]

/-- C6: deleting a contact, reminder, or project whose key is absent reports
no error and leaves the store — and hence the serialized state — exactly as
it was, for all three containers. -/
theorem claim_C6 (m : DataManager) (hok : StateOK m)
    (cname text pname start_date : String) (ts : Int)
    (hc : searchC m.contacts cname = none)
    (hr : ((ts, text) : RemEntry) ∉ m.reminders)
    (hp : ∀ e ∈ m.projects, ¬(e.2.1 = pname ∧ e.1 = start_date)) :
    postStep m (deleteContactReq cname) = (m, Except.ok (get_data m)) ∧
    postStep m (deleteReminderReq text ts) = (m, Except.ok (get_data m)) ∧
    postStep m (deleteProjectReq pname start_date) = (m, Except.ok (get_data m)) := by
  have e1 : deleteC m.contacts cname = m.contacts := deleteC_noop _ hok.1 _ hc
  have e2 : remRemove m.reminders text ts = m.reminders :=
    remRemove_noop _ hok.2.2.1 _ _ hr
  have e3 : projRemove m.projects pname start_date = m.projects :=
    projRemove_noop _ hok.2.2.2 _ _ hp
  refine ⟨?_, ?_, ?_⟩
  · rw [postStep_deleteContact, e1]
  · rw [postStep_deleteReminder, e2]
  · rw [postStep_deleteProject, e3]

/-- All three deletes are no-ops on the empty startup store. -/
theorem claim_C6_witness :
    StateOK initManager ∧
    searchC initManager.contacts "jo" = none ∧
    ((7 : Int), "call") ∉ initManager.reminders ∧
    (∀ e ∈ initManager.projects, ¬(e.2.1 = "site" ∧ e.1 = "2024-01-01")) ∧
    (postStep initManager (deleteContactReq "jo") =
       (initManager, Except.ok (get_data initManager)) ∧
     postStep initManager (deleteReminderReq "call" 7) =
       (initManager, Except.ok (get_data initManager)) ∧
     postStep initManager (deleteProjectReq "site" "2024-01-01") =
       (initManager, Except.ok (get_data initManager))) :=
  ⟨stateOK_init, by decide, by decide, by decide,
    claim_C6 initManager stateOK_init "jo" "call" "site" "2024-01-01" 7
      (by decide) (by decide) (by decide)⟩

/-- C9: deleting one contact disturbs no other. At every reachable store,
after `delete(name)` the exact lookup of any other case-folded name is
unchanged, every prefix lookup loses exactly the entries folding to `name`,
and the full listing is the old listing with exactly those entries removed. -/
theorem claim_C9 (reqs : List Request) (name : String) :
    (∀ m : String,
       searchC (deleteC (applyReqs initManager reqs).contacts name) m =
         if foldStr m = foldStr name then none
         else searchC (applyReqs initManager reqs).contacts m) ∧
    (∀ pre : String,
       searchPre (deleteC (applyReqs initManager reqs).contacts name) pre =
         (searchPre (applyReqs initManager reqs).contacts pre).filter
           (fun c => !(foldStr c.name == foldStr name))) ∧
    getAllSorted (deleteC (applyReqs initManager reqs).contacts name) =
      (getAllSorted (applyReqs initManager reqs).contacts).filter
        (fun c => !(foldStr c.name == foldStr name)) := by
  obtain ⟨hwf, hinv, _, _⟩ := stateOK_reachable reqs
  have hwf' := WFt_deleteC hwf name
  have hinv' := PathInv_deleteC hwf hinv name
  refine ⟨fun m => searchC_deleteC _ hwf name m, ?_,
    collect_deleteC _ hwf hinv name⟩
  intro pre
  rw [searchPre_eq_filter _ hwf' hinv' pre, searchPre_eq_filter _ hwf hinv pre]
  have hdel := collect_deleteC _ hwf hinv name
  unfold getAllSorted at hdel
  rw [hdel, List.filter_filter, List.filter_filter]
  refine List.filter_congr ?_
  intro c _
  exact Bool.and_comm _ _

/-- C10: identity is case-insensitive but the stored record keeps the casing
of the most recent insert: lookups under any name with the same fold answer
the record with `name` exactly as passed, and that record — not a folded
form — appears in the full listing and under its own prefix. -/
theorem claim_C10 (reqs : List Request) (name phone email : String) :
    (∀ m : String,
       searchC (insertC (applyReqs initManager reqs).contacts name phone email) m =
         if foldStr m = foldStr name then some ⟨name, phone, email⟩
         else searchC (applyReqs initManager reqs).contacts m) ∧
    (⟨name, phone, email⟩ : Contact) ∈
      getAllSorted (insertC (applyReqs initManager reqs).contacts name phone email) ∧
    (⟨name, phone, email⟩ : Contact) ∈
      searchPre (insertC (applyReqs initManager reqs).contacts name phone email) name := by
  obtain ⟨hwf, hinv, _, _⟩ := stateOK_reachable reqs
  have hwf' := WFt_insertC hwf name phone email
  have hinv' := PathInv_insertC hinv name phone email
  have hs : searchPath (insertC (applyReqs initManager reqs).contacts name phone email)
      (foldStr name) = some ⟨name, phone, email⟩ := by
    have := searchC_insertC (applyReqs initManager reqs).contacts name phone email name
    rw [if_pos rfl] at this
    exact this
  have hmem : (⟨name, phone, email⟩ : Contact) ∈
      collect (insertC (applyReqs initManager reqs).contacts name phone email) :=
    mem_collect.mpr ⟨foldStr name, hs⟩
  refine ⟨fun m => searchC_insertC _ name phone email m, hmem, ?_⟩
  rw [searchPre_eq_filter _ hwf' hinv' name]
  refine List.mem_filter.mpr ⟨hmem, ?_⟩
  exact List.isPrefixOf_iff_prefix.mpr (List.prefix_refl _)
